import Mathlib

/-!
# Open-addressing hash table `userdefined_hashmap.c`

A shallow embedding of the C hash table (string keys, string values, double
hashing, tombstones, load-factor driven resizing) together with theorems about
its observable behaviour.

Modelling conventions
* A C string is a Lean `String`. The exact hash functions `ht_generic_hash` and
  `ht_hash` work on character codes (`Char.toNat`) with the exact integer power
  for `pow(a, e)`; the table operations use them. `ht_generic_hash_machine` and
  `ht_hash_machine` follow the machine arithmetic of the source (signed `char`
  bytes, the `double` returned by `pow`, 64-bit `long`, 32-bit `int`, truncating
  `%`); both versions agree for ASCII keys of at most 8 characters, at most
  46340 buckets and attempts below the bucket count.
* The load `count * 100 / size` is a 32-bit `int` computation (`int32`); a
  signed overflow, undefined in C, is taken as the wrapped two's complement
  value. The fields `count` and `size_index` themselves are integers.
* A bucket pointer is `NULL`, the address of the sentinel `HT_DELETED_ITEM`, or
  the address of a heap item; this is the three-constructor type `bucket`.
* Every `while` loop takes a `fuel` argument counting evaluations of the loop
  condition, and `ht_insert` uses the same number to bound the nesting
  `ht_insert → ht_resize → ht_insert`.  A result `none` means that the fuel did
  not suffice; a call that is `none` for every fuel never returns.
-/

namespace HashMap

/-! ## Prime finder (header `pheader.h`, implementation not in the sources) -/

/-- Modelled from the spec: the primality test used by `next_prime` (declared in
`pheader.h`, implementation missing): `n` has no divisor in `[2, √n]`. -/
def is_prime (n : Nat) : Bool :=
  (List.range n).all (fun d => decide (d < 2) || decide (n < d * d) || decide (n % d ≠ 0))

/-- Modelled from the spec: the upward search of `next_prime`: return the first
candidate at or above `n` that passes `is_prime`, trying `fuel` candidates. -/
def next_prime_from : Nat → Nat → Nat
  | 0, n => n
  | fuel + 1, n => if is_prime n then n else next_prime_from fuel (n + 1)

/-- Modelled from the spec: `next_prime` (declared in `pheader.h`, implementation
missing) returns `n` when `n` is prime and otherwise the next prime above it.
The search is cut after `n` candidates, which is never reached for `n ≥ 2`
(there is a prime in `[n, 2n)`). -/
def next_prime (n : Nat) : Nat := next_prime_from n n

/-! ## Data model -/

/-- The struct `ht_item`: an owned key and value. -/
structure ht_item where
  key : String
  value : String
deriving DecidableEq, Repr

/-- One cell of `ht->items`: `NULL`, `&HT_DELETED_ITEM`, or a live item. -/
inductive bucket where
  | NULL : bucket
  | HT_DELETED_ITEM : bucket
  | item : ht_item → bucket
deriving DecidableEq, Repr

/-- The struct `ht_hash_table`. -/
structure ht_hash_table where
  size_index : Int
  size : Nat
  count : Int
  items : List bucket
deriving DecidableEq, Repr

/-- The constant `HT_PRIME_1`, the multiplier of the first hash. -/
def HT_PRIME_1 : Nat := 151

/-- The constant `HT_PRIME_2`, the multiplier of the second hash. -/
def HT_PRIME_2 : Nat := 163

/-! ## Machine arithmetic of the source -/

/-- The value of a C `int` computation: the two's complement 32-bit value of
`x`.  A signed overflow is undefined in C; the model takes the wrapped result
that the usual compilers produce. -/
def int32 (x : Int) : Int := (x + 2 ^ 31) % 2 ^ 32 - 2 ^ 31

/-- The value of a C `long` computation: the two's complement 64-bit value. -/
def int64 (x : Int) : Int := (x + 2 ^ 63) % 2 ^ 64 - 2 ^ 63

/-- The number of binary digits of `n`, counting at most `fuel` of them. -/
def bit_length : Nat → Nat → Nat
  | 0, _ => 0
  | fuel + 1, n => if n = 0 then 0 else bit_length fuel (n / 2) + 1

/-- The `double` nearest to the natural number `n` (53-bit significand, ties to
even): the result of `pow(a, e)` for integers `a`, `e ≥ 0` with `n = a ^ e`,
taking `pow` as correctly rounded. It is `n` itself below `2 ^ 53`. -/
def round_double (n : Nat) : Nat :=
  if n < 2 ^ 53 then n
  else
    let ulp := 2 ^ (bit_length 1100 n - 53)
    let q := n / ulp
    let r := n % ulp
    if 2 * r < ulp then q * ulp
    else if ulp < 2 * r then (q + 1) * ulp
    else if q % 2 = 0 then q * ulp
    else (q + 1) * ulp

/-- The cast `(long)x` of a non-negative `double` with integer value `x`. Values
from `2 ^ 63` on do not fit; the cast is then undefined in C and the model takes
the result of the x86-64 conversion, `LONG_MIN`. -/
def to_long (x : Nat) : Int := if x < 2 ^ 63 then (x : Int) else -(2 ^ 63)

/-- The UTF-8 bytes of a character: what a C string holds for it. -/
def utf8_bytes (c : Char) : List Nat :=
  let n := c.toNat
  if n < 128 then [n]
  else if n < 2048 then [192 + n / 64, 128 + n % 64]
  else if n < 65536 then [224 + n / 4096, 128 + n / 64 % 64, 128 + n % 64]
  else [240 + n / 262144, 128 + n / 4096 % 64, 128 + n / 64 % 64, 128 + n % 64]

/-- The value of a byte read through `const char*`, a signed type in the
source's target: bytes from 128 on are negative. -/
def signed_char (b : Nat) : Int := if b < 128 then (b : Int) else (b : Int) - 256

/-- The `char` values of the C string that holds the text `s`. -/
def c_string (s : String) : List Int :=
  (s.toList.flatMap utf8_bytes).map signed_char

/-! ## Hashing -/

/-- The `for` loop of `ht_generic_hash`: `chars` are the characters from position
`i` on, `hash` is the accumulator. -/
def ht_generic_hash_loop (a m len_s : Nat) : List Char → Nat → Nat → Nat
  | [], _, hash => hash
  | c :: cs, i, hash =>
      ht_generic_hash_loop a m len_s cs (i + 1) ((hash + a ^ (len_s - (i + 1)) * c.toNat) % m)

/-- The function `ht_generic_hash(s, a, m)`. -/
def ht_generic_hash (s : String) (a m : Nat) : Nat :=
  ht_generic_hash_loop a m s.length s.toList 0 0

/-- The function `ht_hash(s, num_buckets, attempt)`. -/
def ht_hash (s : String) (num_buckets attempt : Nat) : Nat :=
  let hash_a := ht_generic_hash s HT_PRIME_1 num_buckets
  let hash_b := ht_generic_hash s HT_PRIME_2 num_buckets
  (hash_a + attempt * (hash_b + 1)) % num_buckets

/-! ### The same functions in machine arithmetic

`ht_generic_hash` and `ht_hash` above compute in exact arithmetic on character
codes. The definitions below follow the machine arithmetic of the source; the
two agree for ASCII keys of at most 8 characters and fewer than 46341 buckets
(`ht_generic_hash_machine_eq`, `ht_hash_machine_eq`). -/

/-- The `for` loop of `ht_generic_hash` in machine arithmetic: `hash` is a
64-bit `long`, the power is the `double` returned by `pow` cast to `long`, the
character is a signed `char`, and `%` truncates towards zero. -/
def ht_generic_hash_machine_loop (a : Nat) (m : Int) (len_s : Nat) :
    List Int → Nat → Int → Int
  | [], _, hash => hash
  | c :: cs, i, hash =>
      ht_generic_hash_machine_loop a m len_s cs (i + 1)
        (Int.tmod (int64 (hash + int64 (to_long (round_double (a ^ (len_s - (i + 1)))) * c))) m)

/-- The function `ht_generic_hash(s, a, m)` in machine arithmetic. -/
def ht_generic_hash_machine (s : String) (a m : Nat) : Int :=
  int32 (ht_generic_hash_machine_loop a (m : Int) (c_string s).length (c_string s) 0 0)

/-- The function `ht_hash(s, num_buckets, attempt)` in machine arithmetic: the
sum and the product are 32-bit `int` computations and `%` truncates towards
zero. -/
def ht_hash_machine (s : String) (num_buckets attempt : Nat) : Int :=
  let hash_a := ht_generic_hash_machine s HT_PRIME_1 num_buckets
  let hash_b := ht_generic_hash_machine s HT_PRIME_2 num_buckets
  Int.tmod (int32 (hash_a + int32 ((attempt : Int) * int32 (hash_b + 1)))) (num_buckets : Int)

/-! ## Table operations -/

/-- The function `ht_new_sized(size_index)`. -/
def ht_new_sized (size_index : Int) : ht_hash_table :=
  let base_size := 50 <<< size_index.toNat
  let size := next_prime base_size
  { size_index := size_index, size := size, count := 0,
    items := List.replicate size bucket.NULL }

/-- The function `ht_new()`. -/
def ht_new : ht_hash_table := ht_new_sized 0

/-- The integer `load = ht->count * 100 / ht->size`: the product is a 32-bit
`int` computation and the division truncates towards zero. -/
def ht_load (ht : ht_hash_table) : Int :=
  Int.tdiv (int32 (ht.count * 100)) (ht.size : Int)

/-- The probe loop of `ht_insert` followed by the store: `index` is the bucket
under inspection (`cur_item = ht->items[index]`), `i` the next attempt. -/
def ht_insert_loop (ht : ht_hash_table) (key value : String) :
    Nat → Nat → Nat → Option ht_hash_table
  | 0, _, _ => none
  | fuel + 1, index, i =>
      match ht.items.getD index bucket.NULL with
      | bucket.item cur_item =>
          if cur_item.key = key then
            some { ht with items := ht.items.set index (bucket.item ⟨key, value⟩) }
          else
            ht_insert_loop ht key value fuel (ht_hash key ht.size i) (i + 1)
      | _ =>
          some { ht with items := ht.items.set index (bucket.item ⟨key, value⟩),
                         count := ht.count + 1 }

/-- The `for` loop of `ht_resize`: every live item of the old array is inserted
into `new_ht` with the insert function `ins`. -/
def ht_resize_loop (ins : ht_hash_table → String → String → Option ht_hash_table) :
    List bucket → ht_hash_table → Option ht_hash_table
  | [], new_ht => some new_ht
  | bucket.item it :: rest, new_ht =>
      match ins new_ht it.key it.value with
      | none => none
      | some new_ht1 => ht_resize_loop ins rest new_ht1
  | _ :: rest, new_ht => ht_resize_loop ins rest new_ht

/-- The body of `ht_resize(ht, direction)` with the insert function it calls as a
parameter. -/
def ht_resize_with (ins : ht_hash_table → String → String → Option ht_hash_table)
    (ht : ht_hash_table) (direction : Int) : Option ht_hash_table :=
  let new_size_index := ht.size_index + direction
  if new_size_index < 0 then some ht
  else
    match ht_resize_loop ins ht.items (ht_new_sized new_size_index) with
    | none => none
    | some new_ht =>
        some { size_index := new_ht.size_index, count := new_ht.count,
               size := new_ht.size, items := new_ht.items }

/-- The function `ht_insert(ht, key, value)`. -/
def ht_insert : Nat → ht_hash_table → String → String → Option ht_hash_table
  | 0, _, _, _ => none
  | fuel + 1, ht, key, value =>
      match (if ht_load ht > 70 then ht_resize_with (ht_insert fuel) ht 1 else some ht) with
      | none => none
      | some ht1 => ht_insert_loop ht1 key value (fuel + 1) (ht_hash key ht1.size 0) 1

/-- The function `ht_resize(ht, direction)`. -/
def ht_resize (fuel : Nat) (ht : ht_hash_table) (direction : Int) : Option ht_hash_table :=
  ht_resize_with (ht_insert fuel) ht direction

/-- The probe loop of `ht_search`; the result `some none` is the C `NULL`. -/
def ht_search_loop (ht : ht_hash_table) (key : String) :
    Nat → Nat → Nat → Option (Option String)
  | 0, _, _ => none
  | fuel + 1, index, i =>
      match ht.items.getD index bucket.NULL with
      | bucket.item item =>
          if item.key = key then some (some item.value)
          else ht_search_loop ht key fuel (ht_hash key ht.size i) (i + 1)
      | _ => some none

/-- The function `ht_search(ht, key)`. -/
def ht_search (fuel : Nat) (ht : ht_hash_table) (key : String) : Option (Option String) :=
  ht_search_loop ht key fuel (ht_hash key ht.size 0) 1

/-- The probe loop of `ht_delete`, on the item array. -/
def ht_delete_loop (key : String) (size : Nat) :
    Nat → List bucket → Nat → Nat → Option (List bucket)
  | 0, _, _, _ => none
  | fuel + 1, items, index, i =>
      match items.getD index bucket.NULL with
      | bucket.item item =>
          if item.key = key then
            ht_delete_loop key size fuel (items.set index bucket.HT_DELETED_ITEM)
              (ht_hash key size i) (i + 1)
          else
            ht_delete_loop key size fuel items (ht_hash key size i) (i + 1)
      | _ => some items

/-- The function `ht_delete(ht, key)`. -/
def ht_delete (fuel : Nat) (ht : ht_hash_table) (key : String) : Option ht_hash_table :=
  match (if ht_load ht < 10 then ht_resize fuel ht (-1) else some ht) with
  | none => none
  | some ht1 =>
      match ht_delete_loop key ht1.size fuel ht1.items (ht_hash key ht1.size 0) 1 with
      | none => none
      | some items => some { ht1 with items := items, count := ht1.count - 1 }

/-! ## Reachable states -/

/-- The table states produced from `ht_new()` by calls of `ht_insert` and
`ht_delete` that return. -/
inductive Reachable : ht_hash_table → Prop
  | create : Reachable ht_new
  | insert {ht ht1 : ht_hash_table} (fuel : Nat) (key value : String) :
      Reachable ht → ht_insert fuel ht key value = some ht1 → Reachable ht1
  | delete {ht ht1 : ht_hash_table} (fuel : Nat) (key : String) :
      Reachable ht → ht_delete fuel ht key = some ht1 → Reachable ht1

/-- The number of live items in the bucket array. -/
def live_count (items : List bucket) : Nat :=
  (items.filter (fun b => match b with | bucket.item _ => true | _ => false)).length

/-! ## Operation sequences and the abstract map -/

/-- One client call: `ht_insert(ht, key, value)` or `ht_delete(ht, key)`. -/
inductive Op where
  | insert (key value : String) : Op
  | delete (key : String) : Op

/-- Perform one client call. -/
def apply_op (fuel : Nat) (ht : ht_hash_table) : Op → Option ht_hash_table
  | Op.insert key value => ht_insert fuel ht key value
  | Op.delete key => ht_delete fuel ht key

/-- Perform a sequence of client calls, left to right. -/
def run (fuel : Nat) : List Op → ht_hash_table → Option ht_hash_table
  | [], ht => some ht
  | op :: ops, ht =>
      match apply_op fuel ht op with
      | none => none
      | some ht1 => run fuel ops ht1

/-- The finite map of the specification, one call: Insert sets `key` to `value`,
Delete erases `key`. -/
def abs_apply (m : String → Option String) : Op → String → Option String
  | Op.insert key value => fun k => if k = key then some value else m k
  | Op.delete key => fun k => if k = key then none else m k

/-- The finite map of the specification after replaying a sequence of calls. -/
def abs_run : List Op → (String → Option String) → String → Option String
  | [], m => m
  | op :: ops, m => abs_run ops (abs_apply m op)

/-- The empty finite map. -/
def abs_empty : String → Option String := fun _ => none

/-- Whether some live item of the array has key `key`. -/
def stores_key (items : List bucket) (key : String) : Bool :=
  items.any (fun b => match b with
    | bucket.item it => decide (it.key = key)
    | _ => false)

/-- The relation between `size` and `size_index` set up by `ht_new_sized`. -/
def SizeInv (ht : ht_hash_table) : Prop :=
  0 ≤ ht.size_index ∧ ht.size = next_prime (50 <<< ht.size_index.toNat)

/-- The bucket array has `size` cells and `size` is positive. -/
def WellFormed (ht : ht_hash_table) : Prop :=
  ht.items.length = ht.size ∧ 0 < ht.size

/-! ## Concrete tables used below -/

/-- A table of 53 buckets at `size_index` 0 with the given count and cells. -/
def table53 (count : Int) (cells : List (Nat × bucket)) : ht_hash_table :=
  { size_index := 0, size := 53, count := count,
    items := cells.foldl (fun items c => items.set c.1 c.2) (List.replicate 53 bucket.NULL) }

/-- The fresh table after `ht_insert(ht, "cat", "meow")`: the item sits in bucket 5. -/
def ht_cat : ht_hash_table := table53 1 [(5, bucket.item ⟨"cat", "meow"⟩)]

/-- Bucket 12 holds a tombstone (the deleted "A"), bucket 25 holds "v". -/
def ht_A_v : ht_hash_table :=
  table53 1 [(12, bucket.HT_DELETED_ITEM), (25, bucket.item ⟨"v", "y"⟩)]

/-- Bucket 13 holds a tombstone (the deleted "B"), bucket 27 holds "w". -/
def ht_B_w : ht_hash_table :=
  table53 1 [(13, bucket.HT_DELETED_ITEM), (27, bucket.item ⟨"w", "y"⟩)]

/-- Bucket 14 holds a tombstone (the deleted "C"), bucket 29 holds "x". -/
def ht_C_x : ht_hash_table :=
  table53 1 [(14, bucket.HT_DELETED_ITEM), (29, bucket.item ⟨"x", "y"⟩)]

/-- The 38 one-character keys with codes 53 to 90, which are "5" to "Z". -/
def keys38 : List String :=
  (List.range 38).map (fun j => String.singleton (Char.ofNat (53 + j)))

/-- One delete of an absent key on the fresh table, then 38 inserts of distinct
keys that fall into the buckets 0 to 37. -/
def ops_undercount : List Op :=
  Op.delete "x" :: keys38.map (fun k => Op.insert k "v")

/-- The 39 inserts of the one-character keys with codes 53 to 91 ("5" to "["),
the last of which makes the fresh table grow. -/
def ops_grow : List Op :=
  (List.range 39).map (fun j => Op.insert (String.singleton (Char.ofNat (53 + j))) "v")

/-- The table after `ops_grow`: 101 buckets at `size_index` 1. -/
def ht_grown : ht_hash_table := (run 2 ops_grow ht_new).getD ht_new

/-- Fifteen deletes of an absent key on the fresh table, then 53 inserts of the
one-character keys with codes 53 to 105 ("5" to "i"), one per bucket. -/
def ops_fill : List Op :=
  List.replicate 15 (Op.delete "x") ++
    (List.range 53).map (fun j => Op.insert (String.singleton (Char.ofNat (53 + j))) "v")

/-- The calls that store the key "v" twice: "v" is first placed behind "A", then
"A" is deleted and "v" is inserted again into the freed bucket. -/
def ops_dup : List Op :=
  [Op.insert "A" "x", Op.insert "v" "old", Op.delete "A", Op.insert "v" "new"]

/-- The table after `ops_dup`: bucket 12 holds "v" ↦ "new", bucket 25 holds
"v" ↦ "old". -/
def ht_dup : ht_hash_table :=
  table53 2 [(12, bucket.item ⟨"v", "new"⟩), (25, bucket.item ⟨"v", "old"⟩)]

/-- The calls that store the key "w" twice (buckets 13 and 27) and then insert
the 36 one-character keys with codes 53 to 90 other than "B" and "P", which
fall into the other buckets 0 to 37; count is then 38. -/
def ops_dup_grow : List Op :=
  [Op.insert "B" "x", Op.insert "w" "old", Op.delete "B", Op.insert "w" "new"] ++
    ((List.range 38).filter (fun j => j ≠ 13 ∧ j ≠ 27)).map
      (fun j => Op.insert (String.singleton (Char.ofNat (53 + j))) "v")

/-- The 37 inserts of the one-character keys with codes 53 to 89 ("5" to "Y"). -/
def ops_37 : List Op :=
  (List.range 37).map (fun j => Op.insert (String.singleton (Char.ofNat (53 + j))) "v")

/-- The hash of the specification, section 4.2:
`(Σ_{i=0}^{len(s)-1} a^(len(s)-1-i) * code(s[i])) mod m`, in exact integer
arithmetic. -/
def hash_spec (s : String) (a m : Nat) : Nat :=
  ((List.range s.length).map
    (fun i => a ^ (s.length - 1 - i) * (s.toList.getD i default).toNat)).sum % m

/-- Trial division by odd numbers: whether `n` has no divisor among
`d, d + 2, d + 4, ...` up to the square root of `n`, trying at most `fuel`
candidates. -/
def no_divisor_from (n : Nat) : Nat → Nat → Bool
  | 0, _ => false
  | fuel + 1, d =>
      if n < d * d then true
      else if n % d = 0 then false
      else no_divisor_from n fuel (d + 2)

/-! ## The prime finder meets its contract -/

/-- Trial division up to the square root decides primality. -/
theorem is_prime_iff (n : Nat) (hn : 2 ≤ n) : is_prime n = true ↔ Nat.Prime n := by
  unfold is_prime
  rw [List.all_eq_true]
  constructor
  · intro h
    rw [Nat.prime_def_le_sqrt]
    refine ⟨hn, fun m hm hms hdvd => ?_⟩
    have hmm : m * m ≤ n := Nat.le_sqrt.mp hms
    have hlt : m < n := by nlinarith
    have := h m (List.mem_range.mpr hlt)
    simp only [Bool.or_eq_true, decide_eq_true_eq] at this
    rcases this with (h1 | h1) | h1
    · omega
    · omega
    · exact h1 (Nat.mod_eq_zero_of_dvd hdvd)
  · intro hp d hd
    have hdn : d < n := List.mem_range.mp hd
    simp only [Bool.or_eq_true, decide_eq_true_eq]
    by_cases h2 : d < 2
    · exact Or.inl (Or.inl h2)
    · right
      intro hmod
      have hdvd : d ∣ n := Nat.dvd_of_mod_eq_zero hmod
      rcases (Nat.dvd_prime hp).mp hdvd with h1 | h1 <;> omega

/-- The upward search returns the smallest prime at or above `n` when one lies
within the candidates tried. -/
theorem next_prime_from_spec (fuel : Nat) : ∀ n p : Nat, 2 ≤ n → Nat.Prime p → n ≤ p →
    p < n + fuel →
    Nat.Prime (next_prime_from fuel n) ∧ n ≤ next_prime_from fuel n ∧
      next_prime_from fuel n ≤ p := by
  induction fuel with
  | zero => intro n p _ _ h1 h2; omega
  | succ fuel ih =>
      intro n p hn hp hnp hlt
      unfold next_prime_from
      by_cases hpr : is_prime n = true
      · rw [if_pos hpr]
        exact ⟨(is_prime_iff n hn).mp hpr, le_refl n, hnp⟩
      · rw [if_neg hpr]
        have hne : n ≠ p := by
          intro h
          exact hpr ((is_prime_iff n hn).mpr (h ▸ hp))
        obtain ⟨h1, h2, h3⟩ := ih (n + 1) p (by omega) hp (by omega) (by omega)
        exact ⟨h1, by omega, h3⟩

/-- The modelled `next_prime` meets the contract of the specification: for
`n ≥ 2` it returns the smallest prime `≥ n`. -/
theorem next_prime_spec (n : Nat) (hn : 2 ≤ n) :
    Nat.Prime (next_prime n) ∧ n ≤ next_prime n ∧
      ∀ p, Nat.Prime p → n ≤ p → next_prime n ≤ p := by
  obtain ⟨q, hq, hnq, hq2⟩ := Nat.exists_prime_lt_and_le_two_mul n (by omega)
  have hq3 : q < n + n := by
    rcases Nat.lt_or_ge q (n + n) with h | h
    · exact h
    · have hqe : q = 2 * n := by omega
      have h2 : (2 : Nat) ∣ q := ⟨n, hqe⟩
      rcases (Nat.dvd_prime hq).mp h2 with h1 | h1 <;> omega
  obtain ⟨h1, h2, _⟩ := next_prime_from_spec n n q hn hq (by omega) hq3
  refine ⟨h1, h2, fun p hp hnp => ?_⟩
  rcases Nat.lt_or_ge p (n + n) with h | h
  · exact (next_prime_from_spec n n p hn hp hnp h).2.2
  · have := (next_prime_from_spec n n q hn hq (by omega) hq3).2.2
    unfold next_prime
    omega

/-! ## The size invariant -/

/-- The probe loop of `ht_insert` changes neither `size_index` nor `size`. -/
theorem ht_insert_loop_size (ht : ht_hash_table) (key value : String) (fuel : Nat) :
    ∀ (index i : Nat) (ht1 : ht_hash_table),
      ht_insert_loop ht key value fuel index i = some ht1 →
      ht1.size_index = ht.size_index ∧ ht1.size = ht.size := by
  induction fuel with
  | zero => intro index i ht1 h; simp [ht_insert_loop] at h
  | succ fuel ih =>
      intro index i ht1 h
      unfold ht_insert_loop at h
      split at h
      · split at h
        · cases h; exact ⟨rfl, rfl⟩
        · exact ih _ _ _ h
      · cases h; exact ⟨rfl, rfl⟩

/-- A property kept by the insert function is kept by the re-insertion loop. -/
theorem ht_resize_loop_inv (P : ht_hash_table → Prop)
    (ins : ht_hash_table → String → String → Option ht_hash_table)
    (hins : ∀ t k v t1, P t → ins t k v = some t1 → P t1) (items : List bucket) :
    ∀ new_ht r, P new_ht → ht_resize_loop ins items new_ht = some r → P r := by
  induction items with
  | nil => intro new_ht r hP h; simp [ht_resize_loop] at h; exact h ▸ hP
  | cons b rest ih =>
      intro new_ht r hP h
      cases b with
      | NULL => exact ih new_ht r hP (by simpa [ht_resize_loop] using h)
      | HT_DELETED_ITEM => exact ih new_ht r hP (by simpa [ht_resize_loop] using h)
      | item it =>
          simp only [ht_resize_loop] at h
          split at h
          · cases h
          · next new_ht1 heq => exact ih new_ht1 r (hins _ _ _ _ hP heq) h

theorem ht_new_sized_SizeInv (size_index : Int) (h : 0 ≤ size_index) :
    SizeInv (ht_new_sized size_index) := ⟨h, rfl⟩

theorem ht_resize_with_SizeInv
    (ins : ht_hash_table → String → String → Option ht_hash_table)
    (hins : ∀ t k v t1, SizeInv t → ins t k v = some t1 → SizeInv t1)
    (ht : ht_hash_table) (direction : Int) (r : ht_hash_table) (hinv : SizeInv ht)
    (h : ht_resize_with ins ht direction = some r) : SizeInv r := by
  unfold ht_resize_with at h
  simp only at h
  split at h
  · cases h; exact hinv
  · next hneg =>
      split at h
      · cases h
      · next new_ht heq =>
          cases h
          exact ht_resize_loop_inv SizeInv ins hins ht.items _ new_ht
            (ht_new_sized_SizeInv _ (by omega)) heq

theorem ht_insert_SizeInv (fuel : Nat) :
    ∀ t k v t1, SizeInv t → ht_insert fuel t k v = some t1 → SizeInv t1 := by
  induction fuel with
  | zero => intro t k v t1 _ h; simp [ht_insert] at h
  | succ fuel ih =>
      intro t k v t1 hinv h
      unfold ht_insert at h
      split at h
      · cases h
      · next ht1 heq =>
          have h1 : SizeInv ht1 := by
            split at heq
            · exact ht_resize_with_SizeInv _ ih t 1 ht1 hinv heq
            · cases heq; exact hinv
          obtain ⟨e1, e2⟩ := ht_insert_loop_size _ _ _ _ _ _ _ h
          unfold SizeInv
          rw [e1, e2]
          exact h1

theorem ht_delete_SizeInv (fuel : Nat) (t : ht_hash_table) (k : String) (t1 : ht_hash_table)
    (hinv : SizeInv t) (h : ht_delete fuel t k = some t1) : SizeInv t1 := by
  unfold ht_delete at h
  split at h
  · cases h
  · next ht1 heq =>
      have h1 : SizeInv ht1 := by
        split at heq
        · exact ht_resize_with_SizeInv _ (ht_insert_SizeInv fuel) t (-1) ht1 hinv heq
        · cases heq; exact hinv
      split at h
      · cases h
      · cases h; exact h1

/-- Every reachable table satisfies the relation between `size` and `size_index`. -/
theorem Reachable_SizeInv (ht : ht_hash_table) (h : Reachable ht) : SizeInv ht := by
  induction h with
  | create => exact ht_new_sized_SizeInv 0 (le_refl 0)
  | insert fuel key value _ hstep ih => exact ht_insert_SizeInv fuel _ _ _ _ ih hstep
  | delete fuel key _ hstep ih => exact ht_delete_SizeInv fuel _ _ _ ih hstep

/-! ## Reachability of replayed call sequences -/

/-- A replayed call sequence that returns ends in a reachable table. -/
theorem Reachable_run (fuel : Nat) (ops : List Op) :
    ∀ ht ht1, Reachable ht → run fuel ops ht = some ht1 → Reachable ht1 := by
  induction ops with
  | nil => intro ht ht1 hr h; simp [run] at h; exact h ▸ hr
  | cons op ops ih =>
      intro ht ht1 hr h
      unfold run at h
      split at h
      · cases h
      · next ht2 heq =>
          refine ih ht2 ht1 ?_ h
          cases op with
          | insert key value => exact Reachable.insert fuel key value hr heq
          | delete key => exact Reachable.delete fuel key hr heq

/-! ## A probe sequence that never leaves its first bucket -/

theorem ht_insert_loop_mono (ht : ht_hash_table) (key value : String) (fuel : Nat) :
    ∀ (fuel1 index i : Nat) (r : ht_hash_table), fuel ≤ fuel1 →
      ht_insert_loop ht key value fuel index i = some r →
      ht_insert_loop ht key value fuel1 index i = some r := by
  induction fuel with
  | zero => intro fuel1 index i r _ h; simp [ht_insert_loop] at h
  | succ fuel ih =>
      intro fuel1 index i r hle h
      obtain ⟨n, rfl⟩ : ∃ n, fuel1 = n + 1 := ⟨fuel1 - 1, by omega⟩
      unfold ht_insert_loop at h ⊢
      split at h
      · split at h
        · next hk => rw [if_pos hk]; exact h
        · next hk => rw [if_neg hk]; exact ih n _ _ r (by omega) h
      · exact h

theorem ht_search_loop_mono (ht : ht_hash_table) (key : String) (fuel : Nat) :
    ∀ (fuel1 index i : Nat) (r : Option String), fuel ≤ fuel1 →
      ht_search_loop ht key fuel index i = some r →
      ht_search_loop ht key fuel1 index i = some r := by
  induction fuel with
  | zero => intro fuel1 index i r _ h; simp [ht_search_loop] at h
  | succ fuel ih =>
      intro fuel1 index i r hle h
      obtain ⟨n, rfl⟩ : ∃ n, fuel1 = n + 1 := ⟨fuel1 - 1, by omega⟩
      unfold ht_search_loop at h ⊢
      split at h
      · split at h
        · next hk => rw [if_pos hk]; exact h
        · next hk => rw [if_neg hk]; exact ih n _ _ r (by omega) h
      · exact h

theorem ht_delete_loop_mono (key : String) (size : Nat) (fuel : Nat) :
    ∀ (fuel1 : Nat) (items : List bucket) (index i : Nat) (r : List bucket), fuel ≤ fuel1 →
      ht_delete_loop key size fuel items index i = some r →
      ht_delete_loop key size fuel1 items index i = some r := by
  induction fuel with
  | zero => intro fuel1 items index i r _ h; simp [ht_delete_loop] at h
  | succ fuel ih =>
      intro fuel1 items index i r hle h
      obtain ⟨n, rfl⟩ : ∃ n, fuel1 = n + 1 := ⟨fuel1 - 1, by omega⟩
      unfold ht_delete_loop at h ⊢
      split at h
      · split at h
        · next hk => rw [if_pos hk]; exact ih n _ _ _ r (by omega) h
        · next hk => rw [if_neg hk]; exact ih n _ _ _ r (by omega) h
      · exact h

theorem ht_resize_loop_mono
    (ins ins1 : ht_hash_table → String → String → Option ht_hash_table)
    (hins : ∀ t k v r, ins t k v = some r → ins1 t k v = some r) (items : List bucket) :
    ∀ new_ht r, ht_resize_loop ins items new_ht = some r →
      ht_resize_loop ins1 items new_ht = some r := by
  induction items with
  | nil => intro new_ht r h; simpa [ht_resize_loop] using h
  | cons b rest ih =>
      intro new_ht r h
      cases b with
      | NULL => simp only [ht_resize_loop] at h ⊢; exact ih _ _ h
      | HT_DELETED_ITEM => simp only [ht_resize_loop] at h ⊢; exact ih _ _ h
      | item it =>
          simp only [ht_resize_loop] at h ⊢
          split at h
          · cases h
          · next new_ht1 heq =>
              rw [hins _ _ _ _ heq]
              exact ih _ _ h

theorem ht_resize_with_mono
    (ins ins1 : ht_hash_table → String → String → Option ht_hash_table)
    (hins : ∀ t k v r, ins t k v = some r → ins1 t k v = some r)
    (ht : ht_hash_table) (direction : Int) (r : ht_hash_table)
    (h : ht_resize_with ins ht direction = some r) :
    ht_resize_with ins1 ht direction = some r := by
  unfold ht_resize_with at h ⊢
  simp only at h ⊢
  split at h
  · next hneg => rw [if_pos hneg]; exact h
  · next hneg =>
      rw [if_neg hneg]
      split at h
      · cases h
      · next new_ht heq =>
          rw [ht_resize_loop_mono ins ins1 hins _ _ _ heq]
          exact h

/-- A result of `ht_insert` is the same with any larger fuel. -/
theorem ht_insert_mono (fuel : Nat) :
    ∀ (fuel1 : Nat) (t : ht_hash_table) (k v : String) (r : ht_hash_table), fuel ≤ fuel1 →
      ht_insert fuel t k v = some r → ht_insert fuel1 t k v = some r := by
  induction fuel with
  | zero => intro fuel1 t k v r _ h; simp [ht_insert] at h
  | succ fuel ih =>
      intro fuel1 t k v r hle h
      obtain ⟨n, rfl⟩ : ∃ n, fuel1 = n + 1 := ⟨fuel1 - 1, by omega⟩
      unfold ht_insert at h ⊢
      split at h
      · cases h
      · next ht1 heq =>
          have h1 : (if ht_load t > 70 then ht_resize_with (ht_insert n) t 1 else some t)
              = some ht1 := by
            split at heq
            · next hl =>
                rw [if_pos hl]
                exact ht_resize_with_mono _ _
                  (fun t k v r hr => ih n t k v r (by omega) hr) t 1 ht1 heq
            · next hl => rw [if_neg hl]; exact heq
          rw [h1]
          exact ht_insert_loop_mono ht1 k v (fuel + 1) (n + 1) _ _ r (by omega) h

/-- A result of `ht_search` is the same with any larger fuel. -/
theorem ht_search_mono (fuel fuel1 : Nat) (t : ht_hash_table) (k : String)
    (r : Option String) (hle : fuel ≤ fuel1) (h : ht_search fuel t k = some r) :
    ht_search fuel1 t k = some r :=
  ht_search_loop_mono t k fuel fuel1 _ _ r hle h

/-- A result of `ht_delete` is the same with any larger fuel. -/
theorem ht_delete_mono (fuel fuel1 : Nat) (t : ht_hash_table) (k : String)
    (r : ht_hash_table) (hle : fuel ≤ fuel1) (h : ht_delete fuel t k = some r) :
    ht_delete fuel1 t k = some r := by
  unfold ht_delete at h ⊢
  split at h
  · cases h
  · next ht1 heq =>
      have h1 : (if ht_load t < 10 then ht_resize fuel1 t (-1) else some t) = some ht1 := by
        split at heq
        · next hl =>
            rw [if_pos hl]
            exact ht_resize_with_mono _ _
              (fun t k v r hr => ht_insert_mono fuel fuel1 t k v r hle hr) t (-1) ht1 heq
        · next hl => rw [if_neg hl]; exact heq
      rw [h1]
      simp only
      split at h
      · cases h
      · next items hd =>
          rw [ht_delete_loop_mono k ht1.size fuel fuel1 _ _ _ items hle hd]
          exact h

/-! ## What holds whenever the calls return -/

theorem getD_set_eq (l : List bucket) (idx : Nat) (a d : bucket) (h : idx < l.length) :
    (l.set idx a).getD idx d = a := by
  simp [List.getD_eq_getElem?_getD, List.getElem?_set, h]

theorem getD_set_ne (l : List bucket) (idx j : Nat) (a d : bucket) (h : j ≠ idx) :
    (l.set j a).getD idx d = l.getD idx d := by
  simp [List.getD_eq_getElem?_getD, List.getElem?_set, h]

theorem ht_hash_lt (key : String) (m i : Nat) (hm : 0 < m) : ht_hash key m i < m :=
  Nat.mod_lt _ hm

theorem next_prime_from_ge (fuel : Nat) : ∀ n, n ≤ next_prime_from fuel n := by
  induction fuel with
  | zero => intro n; exact le_refl n
  | succ fuel ih =>
      intro n
      unfold next_prime_from
      split
      · exact le_refl n
      · exact le_trans (Nat.le_succ n) (ih (n + 1))

theorem ht_new_sized_WellFormed (size_index : Int) : WellFormed (ht_new_sized size_index) := by
  refine ⟨by simp [ht_new_sized], ?_⟩
  have h1 : 0 < 50 <<< size_index.toNat := by
    rw [Nat.shiftLeft_eq]
    exact Nat.mul_pos (by decide) (Nat.two_pow_pos _)
  exact lt_of_lt_of_le h1 (next_prime_from_ge _ _)

/-- What the probe loop of `ht_insert` does when it returns: one cell `j`, which
held no item with another key, now holds the new item; the search loop started
at the same position finds the new value. -/
theorem ht_insert_loop_spec (ht : ht_hash_table) (key value : String) (hwf : WellFormed ht)
    (fuel : Nat) :
    ∀ (index i : Nat) (r : ht_hash_table), index < ht.size →
      ht_insert_loop ht key value fuel index i = some r →
      (∃ j, j < ht.items.length ∧ r.items = ht.items.set j (bucket.item ⟨key, value⟩) ∧
          ∀ c, ht.items.getD j bucket.NULL = bucket.item c → c.key = key) ∧
        r.size = ht.size ∧ r.size_index = ht.size_index ∧
        ht_search_loop r key fuel index i = some (some value) := by
  induction fuel with
  | zero => intro index i r _ h; simp [ht_insert_loop] at h
  | succ fuel ih =>
      intro index i r hidx h
      have hlen : index < ht.items.length := by rw [hwf.1]; exact hidx
      unfold ht_insert_loop at h
      split at h
      · next cur hcur =>
          split at h
          · next hk =>
              cases h
              refine ⟨⟨index, hlen, rfl, fun c hc => ?_⟩, rfl, rfl, ?_⟩
              · rw [hcur] at hc
                cases hc
                exact hk
              · unfold ht_search_loop
                simp only [getD_set_eq _ _ _ _ hlen, if_true]
          · next hk =>
              obtain ⟨⟨j, hj, hset, hfree⟩, hsz, hsi, hsearch⟩ :=
                ih _ (i + 1) r (ht_hash_lt key ht.size i hwf.2) h
              refine ⟨⟨j, hj, hset, hfree⟩, hsz, hsi, ?_⟩
              have hne : j ≠ index := by
                intro e
                rw [e] at hfree
                exact hk (hfree cur hcur)
              unfold ht_search_loop
              rw [hset, getD_set_ne _ _ _ _ _ hne, hcur]
              simp only [if_neg hk]
              rw [hsz]
              exact hsearch
      · next hfree =>
          cases h
          refine ⟨⟨index, hlen, rfl, fun c hc => absurd hc (hfree c)⟩, rfl, rfl, ?_⟩
          unfold ht_search_loop
          simp only [getD_set_eq _ _ _ _ hlen, if_true]

theorem ht_insert_loop_WellFormed (ht : ht_hash_table) (key value : String)
    (hwf : WellFormed ht) (fuel index i : Nat) (r : ht_hash_table) (hidx : index < ht.size)
    (h : ht_insert_loop ht key value fuel index i = some r) : WellFormed r := by
  obtain ⟨⟨j, _, hset, _⟩, hsz, _, _⟩ := ht_insert_loop_spec ht key value hwf fuel index i r hidx h
  unfold WellFormed
  rw [hset, hsz, List.length_set]
  exact hwf

theorem ht_resize_with_inv (P : ht_hash_table → Prop)
    (ins : ht_hash_table → String → String → Option ht_hash_table)
    (hins : ∀ t k v t1, P t → ins t k v = some t1 → P t1)
    (hnew : ∀ si : Int, 0 ≤ si → P (ht_new_sized si))
    (ht : ht_hash_table) (direction : Int) (r : ht_hash_table) (hinv : P ht)
    (h : ht_resize_with ins ht direction = some r) : P r := by
  unfold ht_resize_with at h
  simp only at h
  split at h
  · cases h; exact hinv
  · next hneg =>
      split at h
      · cases h
      · next new_ht heq =>
          cases h
          exact ht_resize_loop_inv P ins hins ht.items _ new_ht (hnew _ (by omega)) heq

theorem ht_insert_WellFormed (fuel : Nat) :
    ∀ t k v t1, WellFormed t → ht_insert fuel t k v = some t1 → WellFormed t1 := by
  induction fuel with
  | zero => intro t k v t1 _ h; simp [ht_insert] at h
  | succ fuel ih =>
      intro t k v t1 hwf h
      unfold ht_insert at h
      split at h
      · cases h
      · next ht1 heq =>
          have h1 : WellFormed ht1 := by
            split at heq
            · exact ht_resize_with_inv WellFormed _ ih
                (fun si _ => ht_new_sized_WellFormed si) t 1 ht1 hwf heq
            · cases heq; exact hwf
          exact ht_insert_loop_WellFormed ht1 k v h1 _ _ _ t1 (ht_hash_lt k ht1.size 0 h1.2) h

/-- Round trip, as far as it holds: whenever `ht_insert(ht, key, value)` returns
on a well-formed table, `ht_search(ht, key)` on the result returns `value`. -/
theorem ht_insert_search (fuel : Nat) (t : ht_hash_table) (k v : String) (t1 : ht_hash_table)
    (hwf : WellFormed t) (h : ht_insert fuel t k v = some t1) :
    ht_search fuel t1 k = some (some v) := by
  cases fuel with
  | zero => simp [ht_insert] at h
  | succ fuel =>
      unfold ht_insert at h
      split at h
      · cases h
      · next ht1 heq =>
          have h1 : WellFormed ht1 := by
            split at heq
            · exact ht_resize_with_inv WellFormed _ (ht_insert_WellFormed fuel)
                (fun si _ => ht_new_sized_WellFormed si) t 1 ht1 hwf heq
            · cases heq; exact hwf
          obtain ⟨_, hsz, _, hs⟩ :=
            ht_insert_loop_spec ht1 k v h1 (fuel + 1) _ 1 t1 (ht_hash_lt k ht1.size 0 h1.2) h
          unfold ht_search
          rw [hsz]
          exact hs


/-- What the probe loop of `ht_delete` does when it returns: the array keeps its
length, tombstones and items with another key stay where they are, and the
search loop started at the same position returns `NULL`. -/
theorem ht_delete_loop_spec (key : String) (size : Nat) (hpos : 0 < size) (fuel : Nat) :
    ∀ (items : List bucket) (index i : Nat) (r : List bucket),
      items.length = size → index < size →
      ht_delete_loop key size fuel items index i = some r →
      r.length = size ∧
        (∀ j, items.getD j bucket.NULL = bucket.HT_DELETED_ITEM →
          r.getD j bucket.NULL = bucket.HT_DELETED_ITEM) ∧
        (∀ j c, items.getD j bucket.NULL = bucket.item c → c.key ≠ key →
          r.getD j bucket.NULL = bucket.item c) ∧
        ∀ t : ht_hash_table, t.items = r → t.size = size →
          ht_search_loop t key fuel index i = some none := by
  induction fuel with
  | zero => intro items index i r _ _ h; simp [ht_delete_loop] at h
  | succ fuel ih =>
      intro items index i r hlen hidx h
      have hil : index < items.length := by rw [hlen]; exact hidx
      unfold ht_delete_loop at h
      split at h
      · next cur hcur =>
          split at h
          · next hk =>
              obtain ⟨h1, h2, h3, h4⟩ :=
                ih (items.set index bucket.HT_DELETED_ITEM) _ (i + 1) r
                  (by rw [List.length_set]; exact hlen) (ht_hash_lt key size i hpos) h
              have hdel : r.getD index bucket.NULL = bucket.HT_DELETED_ITEM :=
                h2 index (getD_set_eq _ _ _ _ hil)
              refine ⟨h1, fun j hj => ?_, fun j c hj hc => ?_, fun t ht hs => ?_⟩
              · have hne : index ≠ j := by
                  intro e
                  rw [← e, hcur] at hj
                  cases hj
                exact h2 j (by rw [getD_set_ne _ _ _ _ _ hne]; exact hj)
              · have hne : index ≠ j := by
                  intro e
                  rw [← e, hcur] at hj
                  cases hj
                  exact hc hk
                exact h3 j c (by rw [getD_set_ne _ _ _ _ _ hne]; exact hj) hc
              · unfold ht_search_loop
                rw [ht, hdel]
          · next hk =>
              obtain ⟨h1, h2, h3, h4⟩ :=
                ih items _ (i + 1) r hlen (ht_hash_lt key size i hpos) h
              refine ⟨h1, h2, h3, fun t ht hs => ?_⟩
              unfold ht_search_loop
              rw [ht, h3 index cur hcur hk]
              simp only [if_neg hk]
              rw [hs]
              exact h4 t ht hs
      · next hfree =>
          cases h
          refine ⟨hlen, fun j hj => hj, fun j c hj _ => hj, fun t ht hs => ?_⟩
          unfold ht_search_loop
          rw [ht]
          split
          · next c hc => exact absurd hc (hfree c)
          · rfl

/-- Delete then search, as far as it holds: whenever `ht_delete(ht, key)` returns
on a well-formed table, `ht_search(ht, key)` on the result returns `NULL`. -/
theorem ht_delete_search (fuel : Nat) (t : ht_hash_table) (k : String) (t1 : ht_hash_table)
    (hwf : WellFormed t) (h : ht_delete fuel t k = some t1) :
    ht_search fuel t1 k = some none := by
  unfold ht_delete at h
  split at h
  · cases h
  · next ht1 heq =>
      have h1 : WellFormed ht1 := by
        split at heq
        · exact ht_resize_with_inv WellFormed _ (ht_insert_WellFormed fuel)
            (fun si _ => ht_new_sized_WellFormed si) t (-1) ht1 hwf heq
        · cases heq; exact hwf
      split at h
      · cases h
      · next items hd =>
          cases h
          obtain ⟨_, _, _, hs⟩ := ht_delete_loop_spec k ht1.size h1.2 fuel ht1.items _ 1 items
            h1.1 (ht_hash_lt k ht1.size 0 h1.2) hd
          exact hs _ rfl rfl

theorem ht_delete_WellFormed (fuel : Nat) (t : ht_hash_table) (k : String)
    (t1 : ht_hash_table) (hwf : WellFormed t) (h : ht_delete fuel t k = some t1) :
    WellFormed t1 := by
  unfold ht_delete at h
  split at h
  · cases h
  · next ht1 heq =>
      have h1 : WellFormed ht1 := by
        split at heq
        · exact ht_resize_with_inv WellFormed _ (ht_insert_WellFormed fuel)
            (fun si _ => ht_new_sized_WellFormed si) t (-1) ht1 hwf heq
        · cases heq; exact hwf
      split at h
      · cases h
      · next items hd =>
          cases h
          obtain ⟨hl, _, _, _⟩ := ht_delete_loop_spec k ht1.size h1.2 fuel ht1.items _ 1 items
            h1.1 (ht_hash_lt k ht1.size 0 h1.2) hd
          exact ⟨hl, h1.2⟩

/-- Every reachable table has `size` cells and a positive `size`. -/
theorem Reachable_WellFormed (ht : ht_hash_table) (h : Reachable ht) : WellFormed ht := by
  induction h with
  | create => exact ht_new_sized_WellFormed 0
  | insert fuel key value _ hstep ih => exact ht_insert_WellFormed fuel _ _ _ _ ih hstep
  | delete fuel key _ hstep ih => exact ht_delete_WellFormed fuel _ _ _ ih hstep

/-- On every reachable table, an `ht_insert` that returns is followed by a
successful `ht_search` of the same key. -/
theorem Reachable_insert_search (fuel : Nat) (t : ht_hash_table) (k v : String)
    (t1 : ht_hash_table) (hr : Reachable t) (h : ht_insert fuel t k v = some t1) :
    ht_search fuel t1 k = some (some v) :=
  ht_insert_search fuel t k v t1 (Reachable_WellFormed t hr) h

/-- On every reachable table, an `ht_delete` that returns is followed by an
`ht_search` of the same key that returns `NULL`. -/
theorem Reachable_delete_search (fuel : Nat) (t : ht_hash_table) (k : String)
    (t1 : ht_hash_table) (hr : Reachable t) (h : ht_delete fuel t k = some t1) :
    ht_search fuel t1 k = some none :=
  ht_delete_search fuel t k t1 (Reachable_WellFormed t hr) h

/-! ## The shrink floor and probe loops that never exit -/

/-- At `size_index` 0 the call `ht_resize(ht, -1)` returns at once and leaves the
table as it is, whatever the fuel. -/
theorem ht_resize_floor (fuel : Nat) (t : ht_hash_table) (h0 : t.size_index = 0) :
    ht_resize fuel t (-1) = some t := by
  unfold ht_resize ht_resize_with
  simp [h0]

/-- A returning `ht_delete` at `size_index` 0 changes neither `size` nor
`size_index`. -/
theorem ht_delete_floor (fuel : Nat) (t : ht_hash_table) (k : String) (t1 : ht_hash_table)
    (h0 : t.size_index = 0) (h : ht_delete fuel t k = some t1) :
    t1.size = t.size ∧ t1.size_index = t.size_index := by
  unfold ht_delete at h
  have hr : (if ht_load t < 10 then ht_resize fuel t (-1) else some t) = some t := by
    split
    · exact ht_resize_floor fuel t h0
    · rfl
  rw [hr] at h
  simp only at h
  split at h
  · cases h
  · cases h; exact ⟨rfl, rfl⟩

/-- No sequence of returning deletes at `size_index` 0 changes `size` or
`size_index`. -/
theorem run_delete_floor (fuel : Nat) (keys : List String) :
    ∀ t t1 : ht_hash_table, t.size_index = 0 →
      run fuel (keys.map Op.delete) t = some t1 →
      t1.size = t.size ∧ t1.size_index = t.size_index := by
  induction keys with
  | nil => intro t t1 _ h; simp [run] at h; subst h; exact ⟨rfl, rfl⟩
  | cons k keys ih =>
      intro t t1 h0 h
      simp only [List.map_cons, run, apply_op] at h
      split at h
      · cases h
      · next t2 heq =>
          obtain ⟨e1, e2⟩ := ht_delete_floor fuel t k t2 h0 heq
          obtain ⟨e3, e4⟩ := ih t2 t1 (by rw [e2]; exact h0) h
          exact ⟨by rw [e3, e1], by rw [e4, e2]⟩

/-- Whenever `ht_delete` returns without an effective shrink, count has dropped
by exactly one. -/
theorem ht_delete_count (fuel : Nat) (t : ht_hash_table) (k : String) (t1 : ht_hash_table)
    (hs : ¬ ht_load t < 10 ∨ t.size_index = 0) (h : ht_delete fuel t k = some t1) :
    t1.count = t.count - 1 := by
  unfold ht_delete at h
  have hr : (if ht_load t < 10 then ht_resize fuel t (-1) else some t) = some t := by
    split
    · next hl =>
        rcases hs with hs | hs
        · exact absurd hl hs
        · exact ht_resize_floor fuel t hs
    · rfl
  rw [hr] at h
  simp only at h
  split at h
  · cases h
  · cases h; rfl

/-! ## The probe sequence -/

/-- Distinct attempts below a prime modulus land on distinct buckets when the
step `hash_b + 1` is not a multiple of the modulus. -/
theorem ht_hash_injOn (s : String) (m : Nat) (hm : Nat.Prime m)
    (hb : ¬ m ∣ ht_generic_hash s HT_PRIME_2 m + 1) (i j : Nat) (hi : i < m) (hj : j < m)
    (h : ht_hash s m i = ht_hash s m j) : i = j := by
  unfold ht_hash at h
  simp only at h
  have h1 : i * (ht_generic_hash s HT_PRIME_2 m + 1) ≡
      j * (ht_generic_hash s HT_PRIME_2 m + 1) [MOD m] :=
    Nat.ModEq.add_left_cancel' (ht_generic_hash s HT_PRIME_1 m) h
  have hco : Nat.gcd m (ht_generic_hash s HT_PRIME_2 m + 1) = 1 :=
    (Nat.Prime.coprime_iff_not_dvd hm).mpr hb
  have h2 : i ≡ j [MOD m] := Nat.ModEq.cancel_right_of_coprime hco h1
  unfold Nat.ModEq at h2
  rwa [Nat.mod_eq_of_lt hi, Nat.mod_eq_of_lt hj] at h2

/-- Every bucket below a prime modulus is reached by some attempt below the
modulus when the step is not a multiple of the modulus. -/
theorem ht_hash_surjOn (s : String) (m : Nat) (hm : Nat.Prime m)
    (hb : ¬ m ∣ ht_generic_hash s HT_PRIME_2 m + 1) (b : Nat) (hlt : b < m) :
    ∃ i, i < m ∧ ht_hash s m i = b := by
  have hsub : (Finset.range m).image (ht_hash s m) ⊆ Finset.range m := by
    intro x hx
    obtain ⟨i, _, rfl⟩ := Finset.mem_image.mp hx
    exact Finset.mem_range.mpr (ht_hash_lt s m i hm.pos)
  have hinj : Set.InjOn (ht_hash s m) (Finset.range m : Set Nat) := by
    intro i hi j hj h
    exact ht_hash_injOn s m hm hb i j (Finset.mem_range.mp hi) (Finset.mem_range.mp hj) h
  have hcard : (Finset.range m).card ≤ ((Finset.range m).image (ht_hash s m)).card := by
    rw [Finset.card_image_of_injOn hinj]
  have heq := Finset.eq_of_subset_of_card_le hsub hcard
  have hmem : b ∈ (Finset.range m).image (ht_hash s m) := by
    rw [heq]; exact Finset.mem_range.mpr hlt
  obtain ⟨i, hi, rfl⟩ := Finset.mem_image.mp hmem
  exact ⟨i, Finset.mem_range.mp hi, rfl⟩

/-- In exact arithmetic: for every key `s` and every prime `m` such that
`hash_b(s, m) + 1` is not a multiple of `m`, the map `i ↦ ht_hash(s, m, i)
= (hash_a(s, m) + i * (hash_b(s, m) + 1)) mod m` is a bijection from the
attempts `[0, m)` onto the buckets `[0, m)`. -/
theorem probe_sequence_permutation (s : String) (m : Nat) (hm : Nat.Prime m)
    (hb : ¬ m ∣ ht_generic_hash s HT_PRIME_2 m + 1) :
    (∀ i, ht_hash s m i =
        (ht_generic_hash s HT_PRIME_1 m + i * (ht_generic_hash s HT_PRIME_2 m + 1)) % m) ∧
      Set.BijOn (ht_hash s m) (Set.Iio m) (Set.Iio m) := by
  refine ⟨fun i => rfl, ?_, ?_, ?_⟩
  · intro i _
    exact ht_hash_lt s m i hm.pos
  · intro i hi j hj h
    exact ht_hash_injOn s m hm hb i j hi hj h
  · intro b hlt
    obtain ⟨i, hi, e⟩ := ht_hash_surjOn s m hm hb b hlt
    exact ⟨i, hi, e⟩

/-! ## The hash formula -/

/-- The sum of the specification for the characters `cs` that start at position
`i` of a string of length `len_s`. -/
theorem hash_sum_cons (a len_s : Nat) (c : Char) (cs : List Char) (i : Nat) :
    ((List.range (c :: cs).length).map
        (fun j => a ^ (len_s - 1 - (i + j)) * ((c :: cs).getD j default).toNat)).sum
      = a ^ (len_s - (i + 1)) * c.toNat +
        ((List.range cs.length).map
          (fun j => a ^ (len_s - 1 - (i + 1 + j)) * (cs.getD j default).toNat)).sum := by
  rw [List.length_cons, List.range_succ_eq_map, List.map_cons, List.sum_cons, List.map_map]
  have e1 : len_s - 1 - (i + 0) = len_s - (i + 1) := by omega
  have e2 : ∀ j, len_s - 1 - (i + (j + 1)) = len_s - 1 - (i + 1 + j) := by intro j; omega
  simp only [List.getD_cons_zero, e1]
  congr 2
  apply List.map_congr_left
  intro j _
  simp only [Function.comp, List.getD_cons_succ, e2]

/-- The loop of `ht_generic_hash` adds, modulo `m`, the sum of the specification
over the remaining characters to the accumulator. -/
theorem ht_generic_hash_loop_mod (a m len_s : Nat) (cs : List Char) :
    ∀ i hash, ht_generic_hash_loop a m len_s cs i hash % m =
      (hash + ((List.range cs.length).map
        (fun j => a ^ (len_s - 1 - (i + j)) * (cs.getD j default).toNat)).sum) % m := by
  induction cs with
  | nil => intro i hash; simp [ht_generic_hash_loop]
  | cons c cs ih =>
      intro i hash
      rw [hash_sum_cons]
      unfold ht_generic_hash_loop
      rw [ih (i + 1), ← Nat.add_assoc]
      exact Nat.ModEq.add_right _ (Nat.mod_mod _ _)

/-- The loop of `ht_generic_hash` returns a reduced value when it starts from
one. -/
theorem ht_generic_hash_loop_reduced (a m len_s : Nat) (cs : List Char) :
    ∀ i hash, hash % m = hash → ht_generic_hash_loop a m len_s cs i hash % m =
      ht_generic_hash_loop a m len_s cs i hash := by
  induction cs with
  | nil => intro i hash h; simpa [ht_generic_hash_loop] using h
  | cons c cs ih =>
      intro i hash _
      unfold ht_generic_hash_loop
      exact ih (i + 1) _ (Nat.mod_mod _ _)

/-- In exact arithmetic: for every string `s`, multiplier `a` and modulus
`m > 0`, the incrementally computed `ht_generic_hash(s, a, m)` equals
`(Σ_{i<len} a^(len-1-i) * code(s[i])) mod m` in exact integer arithmetic and
lies in `[0, m)`. -/
theorem hash_formula (s : String) (a m : Nat) (hm : 0 < m) :
    ht_generic_hash s a m = hash_spec s a m ∧ ht_generic_hash s a m < m := by
  have h1 := ht_generic_hash_loop_mod a m s.length s.toList 0 0
  have h2 := ht_generic_hash_loop_reduced a m s.length s.toList 0 0 (Nat.zero_mod m)
  have e : ht_generic_hash s a m = hash_spec s a m := by
    unfold ht_generic_hash hash_spec
    have hl : s.toList.length = s.length := rfl
    rw [← h2, h1, hl]
    simp only [Nat.zero_add]
  refine ⟨e, ?_⟩
  rw [e]
  exact Nat.mod_lt _ hm

/-! ## Growth of `size_index` and of `count` -/

/-- Truncated division by a positive size against a non-negative bound. -/
theorem tdiv_le_iff (x b : Int) (m : Nat) (hm : 0 < m) (hb : 0 ≤ b) :
    Int.tdiv x (m : Int) ≤ b ↔ x < (b + 1) * (m : Int) := by
  have hm1 : (0 : Int) < (m : Int) := by exact_mod_cast hm
  by_cases hx : 0 ≤ x
  · rw [Int.tdiv_eq_ediv hx (le_of_lt hm1), ← Int.lt_add_one_iff]
    exact Int.ediv_lt_iff_lt_mul hm1
  · have hx1 : x < 0 := lt_of_not_ge hx
    have h1 : Int.tdiv x (m : Int) ≤ 0 := by
      have h2 : 0 ≤ Int.tdiv (-x) (m : Int) :=
        Int.tdiv_nonneg (by omega) (le_of_lt hm1)
      rw [Int.neg_tdiv] at h2
      omega
    have h3 : 0 < (b + 1) * (m : Int) := Int.mul_pos (by omega) hm1
    constructor
    · intro _; omega
    · intro _; omega

/-- The probe loop of `ht_insert` changes one cell and adds at most one to count. -/
theorem ht_insert_loop_frame (ht : ht_hash_table) (key value : String) (fuel : Nat) :
    ∀ (index i : Nat) (r : ht_hash_table),
      ht_insert_loop ht key value fuel index i = some r →
      (r.count = ht.count ∨ r.count = ht.count + 1) ∧
        ∃ j, r.items = ht.items.set j (bucket.item ⟨key, value⟩) := by
  induction fuel with
  | zero => intro index i r h; simp [ht_insert_loop] at h
  | succ fuel ih =>
      intro index i r h
      unfold ht_insert_loop at h
      split at h
      · split at h
        · cases h; exact ⟨Or.inl rfl, index, rfl⟩
        · exact ih _ _ _ h
      · cases h; exact ⟨Or.inr rfl, index, rfl⟩

theorem live_count_cons (b : bucket) (l : List bucket) :
    live_count (b :: l) = live_count l + (match b with | bucket.item _ => 1 | _ => 0) := by
  cases b <;> simp [live_count, List.filter_cons]

theorem live_count_replicate (n : Nat) : live_count (List.replicate n bucket.NULL) = 0 := by
  induction n with
  | zero => rfl
  | succ n ih => rw [List.replicate_succ, live_count_cons, ih]; rfl

theorem live_count_le_length (l : List bucket) : live_count l ≤ l.length := by
  unfold live_count
  exact List.length_filter_le _ l

theorem live_count_set_le (l : List bucket) : ∀ (j : Nat) (b : bucket),
    live_count (l.set j b) ≤ live_count l + 1 := by
  induction l with
  | nil => intro j b; simp [live_count]
  | cons a l ih =>
      intro j b
      cases j with
      | zero =>
          rw [List.set_cons_zero, live_count_cons, live_count_cons]
          cases a <;> cases b <;> dsimp only <;> omega
      | succ j =>
          rw [List.set_cons_succ, live_count_cons, live_count_cons]
          have := ih j b
          omega

/-- A returning `ht_insert` never lowers `size_index`. -/
theorem ht_insert_size_index_mono (fuel : Nat) :
    ∀ t k v r, ht_insert fuel t k v = some r → t.size_index ≤ r.size_index := by
  induction fuel with
  | zero => intro t k v r h; simp [ht_insert] at h
  | succ fuel ih =>
      intro t k v r h
      unfold ht_insert at h
      split at h
      · cases h
      · next ht1 heq =>
          have h1 : t.size_index ≤ ht1.size_index := by
            split at heq
            · unfold ht_resize_with at heq
              simp only at heq
              split at heq
              · cases heq; exact le_refl _
              · split at heq
                · cases heq
                · next new_ht hl =>
                    cases heq
                    have := ht_resize_loop_inv (fun x => t.size_index + 1 ≤ x.size_index)
                      (ht_insert fuel) (fun a k v b ha hb => le_trans ha (ih a k v b hb))
                      t.items _ new_ht (le_refl _) hl
                    simp only at this
                    show t.size_index ≤ new_ht.size_index
                    omega
            · cases heq; exact le_refl _
          rw [(ht_insert_loop_size _ _ _ _ _ _ _ h).1]
          exact h1

/-- A returning `ht_resize(ht, 1)` on a table with `size_index ≥ -1` raises
`size_index`, keeps the size invariant, and its count and its number of live
items are at most the number of live items before. -/
theorem ht_resize_up_spec (fuel : Nat) (t r : ht_hash_table) (hsi : 0 ≤ t.size_index + 1)
    (hcount : ∀ (a : ht_hash_table) (k v : String) (b : ht_hash_table) (n : Nat),
      a.count ≤ (n : Int) → live_count a.items ≤ n → ht_insert fuel a k v = some b →
      b.count ≤ ((n + 1 : Nat) : Int) ∧ live_count b.items ≤ n + 1)
    (h : ht_resize_with (ht_insert fuel) t 1 = some r) :
    t.size_index + 1 ≤ r.size_index ∧ SizeInv r ∧
      r.count ≤ (live_count t.items : Int) ∧ live_count r.items ≤ live_count t.items := by
  unfold ht_resize_with at h
  simp only at h
  rw [if_neg (by omega)] at h
  split at h
  · cases h
  · next new_ht hl =>
      cases h
      have hmono := ht_resize_loop_inv (fun x => t.size_index + 1 ≤ x.size_index)
        (ht_insert fuel)
        (fun a k v b ha hb => le_trans ha (ht_insert_size_index_mono fuel a k v b hb))
        t.items _ new_ht (le_refl _) hl
      have hinv := ht_resize_loop_inv SizeInv (ht_insert fuel) (ht_insert_SizeInv fuel)
        t.items _ new_ht (ht_new_sized_SizeInv _ (by omega)) hl
      have hc : ∀ (items : List bucket) (a b : ht_hash_table) (n : Nat),
          a.count ≤ (n : Int) → live_count a.items ≤ n →
          ht_resize_loop (ht_insert fuel) items a = some b →
          b.count ≤ ((n + live_count items : Nat) : Int) ∧
            live_count b.items ≤ n + live_count items := by
        intro items
        induction items with
        | nil =>
            intro a b n h1 h2 h3
            simp only [ht_resize_loop, Option.some.injEq] at h3
            subst h3
            exact ⟨by simpa [live_count] using h1, by simpa [live_count] using h2⟩
        | cons c rest ih =>
            intro a b n h1 h2 h3
            cases c with
            | NULL =>
                simp only [ht_resize_loop] at h3
                have := ih a b n h1 h2 h3
                rw [live_count_cons]
                simpa using this
            | HT_DELETED_ITEM =>
                simp only [ht_resize_loop] at h3
                have := ih a b n h1 h2 h3
                rw [live_count_cons]
                simpa using this
            | item it =>
                simp only [ht_resize_loop] at h3
                split at h3
                · cases h3
                · next a1 ha1 =>
                    obtain ⟨g1, g2⟩ := hcount a it.key it.value a1 n h1 h2 ha1
                    have := ih a1 b (n + 1) g1 g2 h3
                    rw [live_count_cons]
                    simp only
                    have e : n + 1 + live_count rest = n + (live_count rest + 1) := by omega
                    rw [e] at this
                    exact this
      have := hc t.items (ht_new_sized (t.size_index + 1)) new_ht 0
        (by simp [ht_new_sized]) (by simp [ht_new_sized, live_count_replicate]) hl
      simp only [Nat.zero_add] at this
      exact ⟨hmono, hinv, this.1, this.2⟩

/-- A returning `ht_insert` adds at most one to any common bound of count and of
the number of live items. -/
theorem ht_insert_count (fuel : Nat) :
    ∀ (t : ht_hash_table) (k v : String) (r : ht_hash_table) (n : Nat),
      t.count ≤ (n : Int) → live_count t.items ≤ n → ht_insert fuel t k v = some r →
      r.count ≤ ((n + 1 : Nat) : Int) ∧ live_count r.items ≤ n + 1 := by
  induction fuel with
  | zero => intro t k v r n _ _ h; simp [ht_insert] at h
  | succ fuel ih =>
      intro t k v r n h1 h2 h
      unfold ht_insert at h
      split at h
      · cases h
      · next ht1 heq =>
          have hb : ht1.count ≤ (n : Int) ∧ live_count ht1.items ≤ n := by
            split at heq
            · by_cases hneg : t.size_index + 1 < 0
              · unfold ht_resize_with at heq
                simp only at heq
                rw [if_pos hneg] at heq
                cases heq
                exact ⟨h1, h2⟩
              · obtain ⟨_, _, g1, g2⟩ := ht_resize_up_spec fuel t ht1 (by omega) ih heq
                exact ⟨le_trans g1 (by exact_mod_cast h2), le_trans g2 h2⟩
            · cases heq; exact ⟨h1, h2⟩
          obtain ⟨hc, j, hj⟩ := ht_insert_loop_frame _ _ _ _ _ _ _ h
          refine ⟨?_, ?_⟩
          · push_cast
            rcases hc with hc | hc <;> omega
          · rw [hj]
            exact le_trans (live_count_set_le _ _ _) (by omega)

/-! ## Primes just above the base sizes `50 << k` -/

theorem no_divisor_from_spec (n : Nat) (fuel : Nat) :
    ∀ d, d % 2 = 1 → no_divisor_from n fuel d = true →
      ∀ x, x % 2 = 1 → d ≤ x → x * x ≤ n → ¬ x ∣ n := by
  induction fuel with
  | zero => intro d _ h; simp [no_divisor_from] at h
  | succ fuel ih =>
      intro d hd h x hodd hx hxx hdvd
      unfold no_divisor_from at h
      split at h
      · next hlt =>
          have : d * d ≤ x * x := Nat.mul_le_mul hx hx
          omega
      · split at h
        · cases h
        · next hmod =>
            rcases Nat.eq_or_lt_of_le hx with e | hlt
            · subst e
              exact hmod (Nat.mod_eq_zero_of_dvd hdvd)
            · exact ih (d + 2) (by omega) h x hodd (by omega) hxx hdvd

/-- An odd number `≥ 2` that passes trial division by the odd numbers from 3 is
prime. -/
theorem prime_of_no_divisor (n fuel : Nat) (h2 : 2 ≤ n) (hodd : n % 2 = 1)
    (h : no_divisor_from n fuel 3 = true) : Nat.Prime n := by
  refine Nat.prime_def_le_sqrt.mpr ⟨h2, fun m hm hsq hdvd => ?_⟩
  rcases Nat.mod_two_eq_zero_or_one m with he | ho
  · have h2n : 2 ∣ n := Nat.dvd_trans (Nat.dvd_of_mod_eq_zero he) hdvd
    have := Nat.mod_eq_zero_of_dvd h2n
    omega
  · exact no_divisor_from_spec n fuel 3 (by decide) h m ho (by omega) (Nat.le_sqrt.mp hsq) hdvd

/-- A prime `p` with `n ≤ p` bounds `next_prime n` from above. -/
theorem next_prime_le_of_prime (n p fuel : Nat) (hn : 2 ≤ n) (hnp : n ≤ p)
    (hodd : p % 2 = 1) (h : no_divisor_from p fuel 3 = true) : next_prime n ≤ p :=
  (next_prime_spec n hn).2.2 p (prime_of_no_divisor p fuel (le_trans hn hnp) hodd h) hnp

/-- For `k ≤ 19` the bucket count `next_prime(50 << k)` stays below `72 * 2^k`:
there is a prime close above each base size. -/
theorem next_prime_gap (k : Nat) (hk : k ≤ 19) : next_prime (50 <<< k) + 1 < 72 * 2 ^ k := by
  rw [Nat.shiftLeft_eq]
  interval_cases k
  · have := next_prime_le_of_prime 50 53 5 (by decide) (by decide) (by decide)
      (by decide!)
    norm_num at this ⊢
    omega
  · have := next_prime_le_of_prime 100 101 7 (by decide) (by decide) (by decide)
      (by decide!)
    norm_num at this ⊢
    omega
  · have := next_prime_le_of_prime 200 211 9 (by decide) (by decide) (by decide)
      (by decide!)
    norm_num at this ⊢
    omega
  · have := next_prime_le_of_prime 400 401 12 (by decide) (by decide) (by decide)
      (by decide!)
    norm_num at this ⊢
    omega
  · have := next_prime_le_of_prime 800 809 16 (by decide) (by decide) (by decide)
      (by decide!)
    norm_num at this ⊢
    omega
  · have := next_prime_le_of_prime 1600 1601 22 (by decide) (by decide) (by decide)
      (by decide!)
    norm_num at this ⊢
    omega
  · have := next_prime_le_of_prime 3200 3203 30 (by decide) (by decide) (by decide)
      (by decide!)
    norm_num at this ⊢
    omega
  · have := next_prime_le_of_prime 6400 6421 42 (by decide) (by decide) (by decide)
      (by decide!)
    norm_num at this ⊢
    omega
  · have := next_prime_le_of_prime 12800 12809 58 (by decide) (by decide) (by decide)
      (by decide!)
    norm_num at this ⊢
    omega
  · have := next_prime_le_of_prime 25600 25601 82 (by decide) (by decide) (by decide)
      (by decide!)
    norm_num at this ⊢
    omega
  · have := next_prime_le_of_prime 51200 51203 115 (by decide) (by decide) (by decide)
      (by decide!)
    norm_num at this ⊢
    omega
  · have := next_prime_le_of_prime 102400 102407 162 (by decide) (by decide) (by decide)
      (by decide!)
    norm_num at this ⊢
    omega
  · have := next_prime_le_of_prime 204800 204803 228 (by decide) (by decide) (by decide)
      (by decide!)
    norm_num at this ⊢
    omega
  · have := next_prime_le_of_prime 409600 409609 322 (by decide) (by decide) (by decide)
      (by decide!)
    norm_num at this ⊢
    omega
  · have := next_prime_le_of_prime 819200 819229 454 (by decide) (by decide) (by decide)
      (by decide!)
    norm_num at this ⊢
    omega
  · have := next_prime_le_of_prime 1638400 1638431 642 (by decide) (by decide) (by decide)
      (by decide!)
    norm_num at this ⊢
    omega
  · have := next_prime_le_of_prime 3276800 3276803 907 (by decide) (by decide) (by decide)
      (by decide!)
    norm_num at this ⊢
    omega
  · have := next_prime_le_of_prime 6553600 6553621 1282 (by decide) (by decide) (by decide)
      (by decide!)
    norm_num at this ⊢
    omega
  · have := next_prime_le_of_prime 13107200 13107229 1812 (by decide) (by decide) (by decide)
      (by decide!)
    norm_num at this ⊢
    omega
  · have := next_prime_le_of_prime 26214400 26214401 2562 (by decide) (by decide) (by decide)
      (by decide!)
    norm_num at this ⊢
    omega

/-! ## The load after an insert -/

/-- A value inside the range of `int` is not changed by 32-bit arithmetic. -/
theorem int32_eq (x : Int) (h1 : -2147483648 ≤ x) (h2 : x < 2147483648) : int32 x = x := by
  unfold int32
  omega

/-- When `count * 100` fits in an `int`, the load computed by the source is the
exact quotient. -/
theorem ht_load_eq (t : ht_hash_table) (hlo : -21474836 ≤ t.count)
    (hhi : t.count ≤ 21474836) : ht_load t = Int.tdiv (t.count * 100) (t.size : Int) := by
  unfold ht_load
  rw [int32_eq _ (by omega) (by omega)]

/-- The bucket count of a table that satisfies the size invariant is 53 at
`size_index` 0 and at least 100 above. -/
theorem SizeInv_size (t : ht_hash_table) (hinv : SizeInv t) :
    50 * 2 ^ t.size_index.toNat ≤ t.size ∧ (t.size = 53 ∨ 100 ≤ t.size) := by
  obtain ⟨_, h1⟩ := hinv
  have hge : 50 * 2 ^ t.size_index.toNat ≤ t.size := by
    rw [h1, ← Nat.shiftLeft_eq]
    exact next_prime_from_ge _ _
  refine ⟨hge, ?_⟩
  rcases Nat.eq_zero_or_pos t.size_index.toNat with e | e
  · left
    rw [h1, e]
    decide
  · right
    have : 2 ^ 1 ≤ 2 ^ t.size_index.toNat := Nat.pow_le_pow_right (by decide) e
    omega

/-- The exact load after a returning `ht_insert` is at most 71 on a well-formed
table that satisfies the size invariant and whose `count * 100` fits in an
`int`. -/
theorem ht_insert_load (fuel : Nat) (t : ht_hash_table) (k v : String) (t1 : ht_hash_table)
    (hinv : SizeInv t) (hwf : WellFormed t)
    (hlo : -21474836 ≤ t.count) (hhi : t.count ≤ 21474836)
    (h : ht_insert fuel t k v = some t1) :
    Int.tdiv (t1.count * 100) (t1.size : Int) ≤ 71 := by
  have hpos : 0 < t.size := hwf.2
  obtain ⟨hbase, hm⟩ := SizeInv_size t hinv
  cases fuel with
  | zero => simp [ht_insert] at h
  | succ fuel =>
      unfold ht_insert at h
      split at h
      · cases h
      · next ht1 heq =>
          obtain ⟨hc, _⟩ := ht_insert_loop_frame _ _ _ _ _ _ _ h
          obtain ⟨_, hsz⟩ := ht_insert_loop_size _ _ _ _ _ _ _ h
          rw [hsz]
          split at heq
          · next hl =>
              rw [ht_load_eq t hlo hhi] at hl
              have hl1 : ¬ Int.tdiv (t.count * 100) (t.size : Int) ≤ 70 := by omega
              rw [tdiv_le_iff _ 70 t.size hpos (by decide)] at hl1
              have hk : t.size_index.toNat ≤ 19 := by
                by_contra hcon
                have hp : 2 ^ 20 ≤ 2 ^ t.size_index.toNat :=
                  Nat.pow_le_pow_right (by decide) (by omega)
                have hb1 : ((50 * 2 ^ t.size_index.toNat : Nat) : Int) ≤ (t.size : Int) := by
                  exact_mod_cast hbase
                have hp1 : (((2 : Nat) ^ 20 : Nat) : Int) ≤
                    ((2 ^ t.size_index.toNat : Nat) : Int) := by exact_mod_cast hp
                push_cast at hb1 hp1
                generalize (2 : Int) ^ t.size_index.toNat = P at *
                omega
              have hgap : t.size + 1 < 72 * 2 ^ t.size_index.toNat := by
                rw [hinv.2]
                exact next_prime_gap _ hk
              obtain ⟨hsi, hinv1, hcnt, _⟩ :=
                ht_resize_up_spec fuel t ht1 (by have := hinv.1; omega) (ht_insert_count fuel)
                  heq
              obtain ⟨hge, _⟩ := SizeInv_size ht1 hinv1
              have hpos1 : 0 < ht1.size := by
                have : 0 < 2 ^ ht1.size_index.toNat := Nat.two_pow_pos _
                omega
              rw [tdiv_le_iff _ 71 ht1.size hpos1 (by decide)]
              have hlive : live_count t.items ≤ t.size := by
                rw [← hwf.1]; exact live_count_le_length _
              have hpow : 2 ^ (t.size_index.toNat + 1) ≤ 2 ^ ht1.size_index.toNat :=
                Nat.pow_le_pow_right (by decide) (by have := hinv.1; omega)
              rw [Nat.pow_succ] at hpow
              have hge1 : ((50 * 2 ^ ht1.size_index.toNat : Nat) : Int) ≤ (ht1.size : Int) := by
                exact_mod_cast hge
              have hpow1 : ((2 ^ t.size_index.toNat * 2 : Nat) : Int) ≤
                  ((2 ^ ht1.size_index.toNat : Nat) : Int) := by exact_mod_cast hpow
              have hgap1 : ((t.size + 1 : Nat) : Int) <
                  ((72 * 2 ^ t.size_index.toNat : Nat) : Int) := by exact_mod_cast hgap
              have hlive1 : ((live_count t.items : Nat) : Int) ≤ ((t.size : Nat) : Int) := by
                exact_mod_cast hlive
              push_cast at hge1 hpow1 hgap1
              generalize (2 : Int) ^ t.size_index.toNat = P at *
              generalize (2 : Int) ^ ht1.size_index.toNat = Q at *
              rcases hc with hc | hc <;> omega
          · next hl =>
              cases heq
              rw [tdiv_le_iff _ 71 t.size hpos (by decide)]
              rw [ht_load_eq t hlo hhi] at hl
              have hl1 : Int.tdiv (t.count * 100) (t.size : Int) ≤ 70 := by omega
              rw [tdiv_le_iff _ 70 t.size hpos (by decide)] at hl1
              rcases hm with hm | hm
              · rw [hm] at hl1 ⊢
                rcases hc with hc | hc <;> omega
              · rcases hc with hc | hc <;> omega

/-- What `ht_insert` does in machine arithmetic: it resizes before probing
exactly when the load computed by the source exceeds 70, and on a table with
`size_index ≥ 0` a returning insert has raised `size_index` exactly then. -/
theorem ht_insert_grow_iff (fuel : Nat) (t : ht_hash_table) (k v : String)
    (hsi : 0 ≤ t.size_index) :
    (ht_load t > 70 → ht_insert (fuel + 1) t k v =
        (ht_resize fuel t 1).bind
          (fun t2 => ht_insert_loop t2 k v (fuel + 1) (ht_hash k t2.size 0) 1)) ∧
      (¬ ht_load t > 70 → ht_insert (fuel + 1) t k v =
        ht_insert_loop t k v (fuel + 1) (ht_hash k t.size 0) 1) ∧
      ∀ t1, ht_insert fuel t k v = some t1 →
        (t.size_index < t1.size_index ↔ ht_load t > 70) := by
  refine ⟨fun hl => ?_, fun hl => ?_, fun t1 h => ?_⟩
  · unfold ht_insert ht_resize
    rw [if_pos hl]
    cases ht_resize_with (ht_insert fuel) t 1 <;> rfl
  · unfold ht_insert
    rw [if_neg hl]
  · cases fuel with
    | zero => simp [ht_insert] at h
    | succ fuel =>
        unfold ht_insert at h
        split at h
        · cases h
        · next ht1 heq =>
            obtain ⟨hsz, _⟩ := ht_insert_loop_size _ _ _ _ _ _ _ h
            rw [hsz]
            split at heq
            · next hl =>
                obtain ⟨g, _, _, _⟩ :=
                  ht_resize_up_spec fuel t ht1 (by omega) (ht_insert_count fuel) heq
                constructor
                · intro _; exact hl
                · intro _; omega
            · next hl =>
                cases heq
                constructor
                · intro hlt; omega
                · intro hgt; exact absurd hgt hl

/-- Deleting an absent key `n` times from the fresh table is a sequence of
returning calls that leaves an empty table with count `-n`. -/
theorem Reachable_negative_count (n : Nat) : Reachable (table53 (-(n : Int)) []) := by
  induction n with
  | zero => exact Reachable.create
  | succ n ih =>
      refine Reachable.delete 1 "x" ih ?_
      unfold ht_delete
      have hr : (if ht_load (table53 (-(n : Int)) []) < 10
          then ht_resize 1 (table53 (-(n : Int)) []) (-1)
          else some (table53 (-(n : Int)) [])) = some (table53 (-(n : Int)) []) := by
        split
        · exact ht_resize_floor 1 _ rfl
        · rfl
      rw [hr]
      have hd : ht_delete_loop "x" 53 1 (List.replicate 53 bucket.NULL) (ht_hash "x" 53 0) 1
          = some (List.replicate 53 bucket.NULL) := by decide
      dsimp only [table53, List.foldl_nil]
      rw [hd]
      dsimp only
      congr 2
      push_cast
      omega

/-- Beyond the range of `int` the trigger follows the wrapped product: the
reachable empty table with count `-21474837` has the exact quotient
`count * 100 / size = -40518560`, the source computes the load 40518558, and
`ht_insert` grows the table. -/
theorem insert_grows_on_wrapped_load :
    Reachable (table53 (-21474837) []) ∧
      Int.tdiv ((table53 (-21474837) []).count * 100) (table53 (-21474837) []).size
        = -40518560 ∧
      ht_load (table53 (-21474837) []) = 40518558 ∧
      (ht_insert 2 (table53 (-21474837) []) "x" "v").map (fun t1 => (t1.size_index, t1.size))
        = some (1, 101) := by
  refine ⟨?_, by decide, by decide, by decide⟩
  have := Reachable_negative_count 21474837
  simpa using this

/-! ## The hash functions in machine arithmetic -/

/-- A value inside the range of `long` is not changed by 64-bit arithmetic. -/
theorem int64_eq (x : Int) (h1 : -9223372036854775808 ≤ x) (h2 : x < 9223372036854775808) :
    int64 x = x := by
  unfold int64
  omega

/-- The C remainder by a positive modulus lies strictly between `-m` and `m`. -/
theorem tmod_abs_lt (x m : Int) (hm : 0 < m) : -m < Int.tmod x m ∧ Int.tmod x m < m := by
  refine ⟨?_, Int.tmod_lt_of_pos x hm⟩
  by_cases hx : 0 ≤ x
  · have := Int.tmod_nonneg m hx
    omega
  · have h1 := Int.tmod_lt_of_pos (-x) hm
    rw [Int.tmod_def, Int.neg_tdiv, Int.mul_neg] at h1
    rw [Int.tmod_def]
    linarith

/-- The `char` values of an ASCII text are its character codes. -/
theorem c_string_ascii (cs : List Char) (h : ∀ c ∈ cs, c.toNat < 128) :
    (cs.flatMap utf8_bytes).map signed_char = cs.map (fun c => (c.toNat : Int)) := by
  induction cs with
  | nil => rfl
  | cons c cs ih =>
      have hc : c.toNat < 128 := h c (List.mem_cons_self c cs)
      rw [List.flatMap_cons, List.map_append, ih (fun x hx => h x (List.mem_cons_of_mem c hx)),
        List.map_cons]
      simp [utf8_bytes, signed_char, hc]

/-- On ASCII characters, with every power below `2 ^ 53` and a modulus that fits
in an `int`, the machine loop of `ht_generic_hash` computes what the exact loop
computes. -/
theorem ht_generic_hash_machine_loop_eq (a m len_s : Nat) (hm : 0 < m) (hm32 : m < 2 ^ 31)
    (ha : 1 ≤ a) (hpow : a ^ (len_s - 1) < 2 ^ 53) (cs : List Char) :
    ∀ (i hash : Nat), (∀ c ∈ cs, c.toNat < 128) → hash < m →
      ht_generic_hash_machine_loop a (m : Int) len_s (cs.map (fun c => (c.toNat : Int))) i
          (hash : Int)
        = ((ht_generic_hash_loop a m len_s cs i hash : Nat) : Int) := by
  induction cs with
  | nil => intro i hash _ _; rfl
  | cons c cs ih =>
      intro i hash hascii hlt
      have hc : c.toNat < 128 := hascii c (List.mem_cons_self c cs)
      have hp : a ^ (len_s - (i + 1)) < 2 ^ 53 :=
        lt_of_le_of_lt (Nat.pow_le_pow_right ha (by omega)) hpow
      have hprod : a ^ (len_s - (i + 1)) * c.toNat < 2 ^ 53 * 128 :=
        Nat.mul_lt_mul'' hp hc
      rw [List.map_cons]
      unfold ht_generic_hash_machine_loop ht_generic_hash_loop
      have e1 : round_double (a ^ (len_s - (i + 1))) = a ^ (len_s - (i + 1)) := by
        unfold round_double
        rw [if_pos hp]
      have e2 : to_long (a ^ (len_s - (i + 1))) = ((a ^ (len_s - (i + 1)) : Nat) : Int) := by
        unfold to_long
        rw [if_pos (lt_trans hp (by norm_num))]
      have hprod1 : ((a ^ (len_s - (i + 1)) * c.toNat : Nat) : Int) < 2 ^ 53 * 128 := by
        exact_mod_cast hprod
      have hlt1 : (hash : Int) < 2 ^ 31 := by exact_mod_cast lt_trans hlt hm32
      have e3 : int64 (((a ^ (len_s - (i + 1)) : Nat) : Int) * (c.toNat : Int))
          = ((a ^ (len_s - (i + 1)) * c.toNat : Nat) : Int) := by
        rw [← Nat.cast_mul]
        exact int64_eq _ (by omega) (by norm_num at hprod1 ⊢; omega)
      have e4 : int64 ((hash : Int) + ((a ^ (len_s - (i + 1)) * c.toNat : Nat) : Int))
          = ((hash + a ^ (len_s - (i + 1)) * c.toNat : Nat) : Int) := by
        rw [← Nat.cast_add]
        refine int64_eq _ (by omega) ?_
        rw [Nat.cast_add]
        norm_num at hprod1 hlt1 ⊢
        omega
      rw [e1, e2, e3, e4, ← Int.ofNat_tmod]
      exact ih (i + 1) _ (fun x hx => hascii x (List.mem_cons_of_mem c hx)) (Nat.mod_lt _ hm)

/-- The exact `ht_generic_hash` is below a positive modulus. -/
theorem ht_generic_hash_lt (s : String) (a m : Nat) (hm : 0 < m) : ht_generic_hash s a m < m :=
  (hash_formula s a m hm).2

/-- For an ASCII text, a multiplier `a ≥ 1` with `a ^ (len - 1) < 2 ^ 53` and a
positive modulus that fits in an `int`, the machine `ht_generic_hash` returns
what the exact one returns. -/
theorem ht_generic_hash_machine_eq (s : String) (a m : Nat)
    (hascii : ∀ c ∈ s.toList, c.toNat < 128) (ha : 1 ≤ a)
    (hpow : a ^ (s.length - 1) < 2 ^ 53) (hm : 0 < m) (hm32 : m < 2 ^ 31) :
    ht_generic_hash_machine s a m = ((ht_generic_hash s a m : Nat) : Int) := by
  have hcs : c_string s = s.toList.map (fun c => (c.toNat : Int)) :=
    c_string_ascii s.toList hascii
  have hlen : (c_string s).length = s.length := by
    rw [hcs, List.length_map]
    rfl
  unfold ht_generic_hash_machine
  rw [hlen, hcs]
  have h : ht_generic_hash_machine_loop a (m : Int) s.length
      (s.toList.map (fun c => (c.toNat : Int))) 0 ((0 : Nat) : Int)
      = ((ht_generic_hash s a m : Nat) : Int) :=
    ht_generic_hash_machine_loop_eq a m s.length hm hm32 ha hpow s.toList 0 0 hascii hm
  rw [Nat.cast_zero] at h
  rw [h]
  have hlt : ht_generic_hash s a m < m := ht_generic_hash_lt s a m hm
  have hlt1 : ((ht_generic_hash s a m : Nat) : Int) < 2 ^ 31 := by
    exact_mod_cast lt_trans hlt hm32
  exact int32_eq _ (by omega) (by norm_num at hlt1 ⊢; omega)

/-- The machine loop of `ht_generic_hash` keeps the accumulator strictly between
`-m` and `m`. -/
theorem ht_generic_hash_machine_loop_bound (a : Nat) (m : Int) (len_s : Nat) (hm : 0 < m)
    (cs : List Int) :
    ∀ (i : Nat) (hash : Int), -m < hash ∧ hash < m →
      -m < ht_generic_hash_machine_loop a m len_s cs i hash ∧
        ht_generic_hash_machine_loop a m len_s cs i hash < m := by
  induction cs with
  | nil => intro i hash h; exact h
  | cons c cs ih =>
      intro i hash _
      unfold ht_generic_hash_machine_loop
      exact ih (i + 1) _ (tmod_abs_lt _ m hm)

/-- The machine `ht_generic_hash` lies strictly between `-m` and `m`. -/
theorem ht_generic_hash_machine_bound (s : String) (a m : Nat) (hm : 0 < m)
    (hm32 : m < 2 ^ 31) :
    -(m : Int) < ht_generic_hash_machine s a m ∧ ht_generic_hash_machine s a m < (m : Int) := by
  have hm1 : (0 : Int) < (m : Int) := by exact_mod_cast hm
  have hm2 : (m : Int) < 2 ^ 31 := by exact_mod_cast hm32
  have h := ht_generic_hash_machine_loop_bound a (m : Int) (c_string s).length hm1 (c_string s) 0 0
    ⟨by omega, hm1⟩
  unfold ht_generic_hash_machine
  rw [int32_eq _ (by norm_num at hm2; omega) (by norm_num at hm2; omega)]
  exact h

/-- With non-negative hashes `A`, `B` and at most 46340 buckets, the machine
`ht_hash` of an attempt below the bucket count is the exact index
`(A + i * (B + 1)) mod m`: no `int` computation overflows. -/
theorem ht_hash_machine_exact (s : String) (m A B : Nat) (hm : 0 < m) (hm2 : m ≤ 46340)
    (hA : ht_generic_hash_machine s HT_PRIME_1 m = (A : Int))
    (hB : ht_generic_hash_machine s HT_PRIME_2 m = (B : Int)) (i : Nat) (hi : i < m) :
    ht_hash_machine s m i = (((A + i * (B + 1)) % m : Nat) : Int) := by
  have hAlt : A < m := by
    have := (ht_generic_hash_machine_bound s HT_PRIME_1 m hm (by omega)).2
    rw [hA] at this
    exact_mod_cast this
  have hBlt : B < m := by
    have := (ht_generic_hash_machine_bound s HT_PRIME_2 m hm (by omega)).2
    rw [hB] at this
    exact_mod_cast this
  have hprod : i * (B + 1) ≤ 46339 * 46340 := Nat.mul_le_mul (by omega) (by omega)
  have hprod1 : ((i * (B + 1) : Nat) : Int) ≤ 46339 * 46340 := by exact_mod_cast hprod
  unfold ht_hash_machine
  simp only [hA, hB]
  have e1 : int32 ((B : Int) + 1) = ((B + 1 : Nat) : Int) := by
    rw [Nat.cast_add, Nat.cast_one]
    exact int32_eq _ (by omega) (by omega)
  have e2 : int32 ((i : Int) * ((B + 1 : Nat) : Int)) = ((i * (B + 1) : Nat) : Int) := by
    rw [← Nat.cast_mul]
    exact int32_eq _ (by omega) (by omega)
  have e3 : int32 ((A : Int) + ((i * (B + 1) : Nat) : Int)) = ((A + i * (B + 1) : Nat) : Int) := by
    rw [← Nat.cast_add]
    refine int32_eq _ (by omega) ?_
    rw [Nat.cast_add]
    omega
  rw [e1, e2, e3, ← Int.ofNat_tmod]

/-- For an ASCII key of at most 8 characters, at most 46340 buckets and an
attempt below the bucket count, the machine `ht_hash` returns what the exact
`ht_hash` returns. -/
theorem ht_hash_machine_eq (s : String) (m i : Nat)
    (hascii : ∀ c ∈ s.toList, c.toNat < 128) (hlen : s.length ≤ 8)
    (hm : 0 < m) (hm2 : m ≤ 46340) (hi : i < m) :
    ht_hash_machine s m i = ((ht_hash s m i : Nat) : Int) := by
  have hp1 : HT_PRIME_1 ^ (s.length - 1) < 2 ^ 53 :=
    lt_of_le_of_lt (Nat.pow_le_pow_right (by decide) (by omega : s.length - 1 ≤ 7))
      (by norm_num [HT_PRIME_1])
  have hp2 : HT_PRIME_2 ^ (s.length - 1) < 2 ^ 53 :=
    lt_of_le_of_lt (Nat.pow_le_pow_right (by decide) (by omega : s.length - 1 ≤ 7))
      (by norm_num [HT_PRIME_2])
  have hA := ht_generic_hash_machine_eq s HT_PRIME_1 m hascii (by decide) hp1 hm (by omega)
  have hB := ht_generic_hash_machine_eq s HT_PRIME_2 m hascii (by decide) hp2 hm (by omega)
  rw [ht_hash_machine_exact s m _ _ hm hm2 hA hB i hi]
  rfl

/-! ## The claims -/

/-- C3 (fails on the code): on the fresh table, `ht_insert("A", "x");
ht_insert("v", "y"); ht_delete("A")` returns the table `ht_A_v`, and
`ht_search("v")` on it returns `NULL` although "v" ≠ "A" was inserted and never
deleted: the search stops at the tombstone left in bucket 12. -/
theorem delete_hides_other_key :
    ("A" : String) ≠ "v" ∧
      run 3 [Op.insert "A" "x", Op.insert "v" "y", Op.delete "A"] ht_new = some ht_A_v ∧
      ∀ fuel, ht_search (fuel + 1) ht_A_v "v" = some none := by
  refine ⟨by decide, by decide, fun fuel => ?_⟩
  have e : ht_A_v.items.getD (ht_hash "v" ht_A_v.size 0) bucket.NULL
      = bucket.HT_DELETED_ITEM := by decide
  unfold ht_search ht_search_loop
  rw [e]

/-- C4 (fails on the code): in the reachable table `ht_B_w` the first probe of
"w" (bucket 13) is a tombstone and the second probe (bucket 27) holds the live
item "w" ↦ "y"; `ht_search("w")` returns `NULL` at the tombstone instead of
continuing to the item. -/
theorem search_stops_at_tombstone :
    Reachable ht_B_w ∧
      ht_B_w.items.getD (ht_hash "w" ht_B_w.size 0) bucket.NULL = bucket.HT_DELETED_ITEM ∧
      ht_B_w.items.getD (ht_hash "w" ht_B_w.size 1) bucket.NULL = bucket.item ⟨"w", "y"⟩ ∧
      ∀ fuel, ht_search (fuel + 1) ht_B_w "w" = some none := by
  have e : ht_B_w.items.getD (ht_hash "w" ht_B_w.size 0) bucket.NULL
      = bucket.HT_DELETED_ITEM := by decide
  refine ⟨?_, e, by decide, fun fuel => ?_⟩
  · exact Reachable_run 3 [Op.insert "B" "x", Op.insert "w" "y", Op.delete "B"] ht_new ht_B_w
      Reachable.create (by decide)
  · unfold ht_search ht_search_loop
    rw [e]

/-- C6 (fails on the code): after replaying `Insert("C","x"); Insert("x","y");
Delete("C")` the abstract map sends "x" to "y", while `ht_search("x")` on the
table produced by the same calls returns `NULL`. -/
theorem search_differs_from_abstract_map :
    run 3 [Op.insert "C" "x", Op.insert "x" "y", Op.delete "C"] ht_new = some ht_C_x ∧
      abs_run [Op.insert "C" "x", Op.insert "x" "y", Op.delete "C"] abs_empty "x"
        = some "y" ∧
      ∀ fuel, ht_search (fuel + 1) ht_C_x "x" = some none := by
  refine ⟨by decide, by decide, fun fuel => ?_⟩
  have e : ht_C_x.items.getD (ht_hash "x" ht_C_x.size 0) bucket.NULL
      = bucket.HT_DELETED_ITEM := by decide
  unfold ht_search ht_search_loop
  rw [e]

/-- C7 (fails on the code): after one delete of an absent key and 38 inserts of
distinct keys (count 37, 38 live items), `ht_insert("[", "v1")` leaves count 38
and the following `ht_insert("[", "v2")` grows the table, which recounts the 39
live items: count is 39, larger than after the first insert. -/
theorem overwrite_grows_count :
    (run 2 ops_undercount ht_new).bind (fun t =>
      (ht_insert 2 t "[" "v1").bind (fun t1 =>
        (ht_insert 2 t1 "[" "v2").map (fun t2 => (t.count, t1.count, t2.count))))
      = some (37, 38, 39) := by
  decide

/-- C8 (fails on the code): `ht_new(); ht_delete("x")` returns a table with
count `-1` and no live item. -/
theorem count_differs_from_live_items :
    ht_delete 1 ht_new "x" = some (table53 (-1) []) ∧
      (table53 (-1) []).count = -1 ∧ live_count (table53 (-1) []).items = 0 := by
  decide

/-- C9 (fails on the code): the table `ht_cat` is reachable and stores the key
"dog" in no bucket, yet `ht_delete("dog")` returns a different table: count
drops from 1 to 0. -/
theorem delete_absent_key_changes_count :
    ht_insert 1 ht_new "cat" "meow" = some ht_cat ∧
      stores_key ht_cat.items "dog" = false ∧
      ht_delete 1 ht_cat "dog" = some { ht_cat with count := 0 } ∧
      ({ ht_cat with count := 0 } : ht_hash_table) ≠ ht_cat := by
  decide

/-- C10: in every table state reachable from `ht_new()` by returning calls of
`ht_insert` and `ht_delete`, `size_index ≥ 0` and
`size = next_prime(50 << size_index)`; hence `size` is a prime number `≥ 50`,
and it is `53` for the fresh table. -/
theorem size_invariant (ht : ht_hash_table) (h : Reachable ht) :
    0 ≤ ht.size_index ∧ ht.size = next_prime (50 <<< ht.size_index.toNat) ∧
      Nat.Prime ht.size ∧ 50 ≤ ht.size ∧ ht_new.size = 53 := by
  obtain ⟨h0, h1⟩ := Reachable_SizeInv ht h
  have hb : 50 ≤ 50 <<< ht.size_index.toNat := by
    rw [Nat.shiftLeft_eq]
    exact Nat.le_mul_of_pos_right 50 (Nat.two_pow_pos _)
  obtain ⟨hp, hle, _⟩ := next_prime_spec (50 <<< ht.size_index.toNat) (by omega)
  refine ⟨h0, h1, ?_, ?_, by decide⟩
  · rw [h1]; exact hp
  · rw [h1]; omega

/-- Witness for C10: the table reached by 39 inserts, which has grown once,
satisfies the size invariant. -/
theorem size_invariant_witness :
    Reachable ht_grown ∧
      (0 ≤ ht_grown.size_index ∧
        ht_grown.size = next_prime (50 <<< ht_grown.size_index.toNat) ∧
        Nat.Prime ht_grown.size ∧ 50 ≤ ht_grown.size ∧ ht_new.size = 53) :=
  have hr : Reachable ht_grown :=
    Reachable_run 2 ops_grow ht_new ht_grown Reachable.create (by decide)
  ⟨hr, size_invariant ht_grown hr⟩

/-- C12: for every table with `size_index` 0 and every key, the shrink attempted
by `ht_delete` returns at once without touching the table (for every fuel), and
the table returned by `ht_delete` has the same `size` and `size_index`; the same
holds after any sequence of deletes. -/
theorem shrink_floor (t : ht_hash_table) (k : String) (h0 : t.size_index = 0) :
    (∀ fuel, ht_resize fuel t (-1) = some t) ∧
      (∀ fuel t1, ht_delete fuel t k = some t1 →
        t1.size = t.size ∧ t1.size_index = t.size_index) ∧
      ∀ fuel keys t1, run fuel (List.map Op.delete keys) t = some t1 →
        t1.size = t.size ∧ t1.size_index = t.size_index :=
  ⟨fun fuel => ht_resize_floor fuel t h0,
    fun fuel t1 h => ht_delete_floor fuel t k t1 h0 h,
    fun fuel keys t1 h => run_delete_floor fuel keys t t1 h0 h⟩

/-- Witness for C12: deleting "cat" and then "dog" from the table `ht_cat`
(`size_index` 0, count 1) returns a table with count `-1` and size still 53. -/
theorem shrink_floor_witness :
    ht_cat.size_index = 0 ∧
      run 2 (List.map Op.delete ["cat", "dog"]) ht_cat
        = some (table53 (-1) [(5, bucket.HT_DELETED_ITEM)]) ∧
      (table53 (-1) [(5, bucket.HT_DELETED_ITEM)]).size = ht_cat.size ∧
      (table53 (-1) [(5, bucket.HT_DELETED_ITEM)]).size_index = ht_cat.size_index :=
  have h : run 2 (List.map Op.delete ["cat", "dog"]) ht_cat
      = some (table53 (-1) [(5, bucket.HT_DELETED_ITEM)]) := by decide
  have hs := (shrink_floor ht_cat "cat" rfl).2.2 2 ["cat", "dog"] _ h
  ⟨rfl, h, hs.1, hs.2⟩

/-- C17 (fails on the code): after fifteen deletes of an absent key and 53
inserts of distinct keys the fresh table holds 53 live items in its 53 buckets
(count is 38): the reachable table is full. -/
theorem table_becomes_full :
    (run 2 ops_fill ht_new).map (fun t => (t.size, live_count t.items, t.count))
      = some (53, 53, 38) := by
  decide

/-- C18 (fails on the code): after `ops_dup_grow` the search of "w" returns
"new" and the load is 71, so the next insert calls `ht_resize(ht, 1)`; after
that resize the search of "w" returns "old". -/
theorem resize_changes_search_result :
    (run 3 ops_dup_grow ht_new).map (fun t => (t.size_index, ht_load t))
        = some (0, 71) ∧
      (run 3 ops_dup_grow ht_new).bind (fun t => ht_search 3 t "w")
        = some (some "new") ∧
      (run 3 ops_dup_grow ht_new).bind (fun t =>
        (ht_resize 2 t 1).bind (fun r => ht_search 3 r "w")) = some (some "old") := by
  decide

/-- C20 (fails on the code): the calls `ops_dup` return the table `ht_dup`, in
which the two distinct buckets 12 and 25 both hold a live item with key "v". -/
theorem duplicate_key_reachable :
    run 3 ops_dup ht_new = some ht_dup ∧
      ht_dup.items.getD 12 bucket.NULL = bucket.item ⟨"v", "new"⟩ ∧
      ht_dup.items.getD 25 bucket.NULL = bucket.item ⟨"v", "old"⟩ := by
  decide

/-- C15 (as stated, fails on the code): for the ASCII string "!aaaaaaaa",
multiplier 151 and modulus 53 the first power is `151 ^ 8 = 270281038127131201`,
above `2 ^ 53`; `pow` returns the `double` 270281038127131200, the code returns
37 and the formula of the specification gives 17. -/
theorem hash_differs_from_formula :
    151 ^ 8 = 270281038127131201 ∧ round_double (151 ^ 8) = 270281038127131200 ∧
      ht_generic_hash_machine "!aaaaaaaa" 151 53 = 37 ∧
      hash_spec "!aaaaaaaa" 151 53 = 17 := by
  decide!

/-- C15 (amended): for every ASCII string `s`, every multiplier `a ≥ 1` with
`a ^ (len(s) - 1) < 2 ^ 53` and every modulus `0 < m < 2 ^ 31`, the
incrementally computed `ht_generic_hash(s, a, m)` equals
`(Σ_{i<len} a^(len-1-i) * code(s[i])) mod m` and lies in `[0, m)`. -/
theorem hash_formula_machine (s : String) (a m : Nat)
    (hascii : ∀ c ∈ s.toList, c.toNat < 128) (ha : 1 ≤ a)
    (hpow : a ^ (s.length - 1) < 2 ^ 53) (hm : 0 < m) (hm32 : m < 2 ^ 31) :
    ht_generic_hash_machine s a m = ((hash_spec s a m : Nat) : Int) ∧
      0 ≤ ht_generic_hash_machine s a m ∧ ht_generic_hash_machine s a m < (m : Int) := by
  have e := ht_generic_hash_machine_eq s a m hascii ha hpow hm hm32
  obtain ⟨e1, e2⟩ := hash_formula s a m hm
  refine ⟨by rw [e, e1], by rw [e]; exact Int.natCast_nonneg _, ?_⟩
  rw [e]
  exact_mod_cast e2

/-- Witness for C15: the key "cat" with multiplier 151 and modulus 53 hashes to
`(151² * 99 + 151 * 97 + 116) mod 53 = 5`. -/
theorem hash_formula_machine_witness :
    (∀ c ∈ "cat".toList, c.toNat < 128) ∧ 1 ≤ 151 ∧ 151 ^ ("cat".length - 1) < 2 ^ 53 ∧
      0 < 53 ∧ 53 < 2 ^ 31 ∧
      (ht_generic_hash_machine "cat" 151 53 = ((hash_spec "cat" 151 53 : Nat) : Int) ∧
        0 ≤ ht_generic_hash_machine "cat" 151 53 ∧
        ht_generic_hash_machine "cat" 151 53 < ((53 : Nat) : Int)) :=
  ⟨by decide, by decide, by decide, by decide, by decide,
    hash_formula_machine "cat" 151 53 (by decide) (by decide) (by decide) (by decide)
      (by decide)⟩

/-- C11 (as stated, fails on the code): after the 37 inserts `ops_37` on the
fresh table, `ht_insert("Z", "v")` returns a table with count 38 and size 53,
whose load `38 * 100 / 53` is 71, above 70. -/
theorem load_after_insert_exceeds_70 :
    (run 2 ops_37 ht_new).bind (fun t =>
      (ht_insert 2 t "Z" "v").map (fun t1 => (t1.count, t1.size, ht_load t1)))
      = some (38, 53, 71) := by
  decide

/-- C11 (amended): for every reachable table whose `count * 100` fits in a
32-bit `int` (`-21474836 ≤ count ≤ 21474836`), every key and value, the table
returned by `ht_insert` satisfies `count * 100 / size ≤ 71` in integer
arithmetic. -/
theorem load_bound_71 (fuel : Nat) (t : ht_hash_table) (k v : String) (t1 : ht_hash_table)
    (hr : Reachable t) (hlo : -21474836 ≤ t.count) (hhi : t.count ≤ 21474836)
    (h : ht_insert fuel t k v = some t1) :
    Int.tdiv (t1.count * 100) (t1.size : Int) ≤ 71 :=
  ht_insert_load fuel t k v t1 (Reachable_SizeInv t hr) (Reachable_WellFormed t hr) hlo hhi h

/-- Witness for C11: the 38th insert on the fresh table returns a table with
load 71. -/
theorem load_bound_71_witness :
    Reachable ((run 2 ops_37 ht_new).getD ht_new) ∧
      -21474836 ≤ ((run 2 ops_37 ht_new).getD ht_new).count ∧
      ((run 2 ops_37 ht_new).getD ht_new).count ≤ 21474836 ∧
      ht_insert 2 ((run 2 ops_37 ht_new).getD ht_new) "Z" "v"
        = some ((ht_insert 2 ((run 2 ops_37 ht_new).getD ht_new) "Z" "v").getD ht_new) ∧
      Int.tdiv
        (((ht_insert 2 ((run 2 ops_37 ht_new).getD ht_new) "Z" "v").getD ht_new).count * 100)
        (((ht_insert 2 ((run 2 ops_37 ht_new).getD ht_new) "Z" "v").getD ht_new).size : Int)
        ≤ 71 :=
  have hr : Reachable ((run 2 ops_37 ht_new).getD ht_new) :=
    Reachable_run 2 ops_37 ht_new _ Reachable.create (by decide)
  have hlo : -21474836 ≤ ((run 2 ops_37 ht_new).getD ht_new).count := by decide
  have hhi : ((run 2 ops_37 ht_new).getD ht_new).count ≤ 21474836 := by decide
  have h : ht_insert 2 ((run 2 ops_37 ht_new).getD ht_new) "Z" "v"
      = some ((ht_insert 2 ((run 2 ops_37 ht_new).getD ht_new) "Z" "v").getD ht_new) := by
    decide
  ⟨hr, hlo, hhi, h, load_bound_71 2 _ "Z" "v" _ hr hlo hhi h⟩

/-- C16 (as stated, fails on the code): after the 37 inserts `ops_37` the table
has `(count + 1) * 100 / size = 71 > 70` and `count * 100 / size = 69`, and
`ht_insert("Z", "v")` returns a table that still has `size_index` 0 and size 53:
no resize was performed. -/
theorem no_grow_at_count_plus_one :
    (run 2 ops_37 ht_new).bind (fun t =>
      (ht_insert 2 t "Z" "v").map (fun t1 =>
        (Int.tdiv ((t.count + 1) * 100) (t.size : Int), ht_load t, t1.size_index, t1.size)))
      = some (71, 69, 0, 53) := by
  decide

/-- C16 (amended): for every table with `size_index ≥ 0` whose `count * 100`
fits in a 32-bit `int`, `ht_insert` performs `ht_resize(ht, 1)` before probing
if and only if `count * 100 / size > 70`, with count and size taken before the
call; a returning insert has raised `size_index` exactly in that case. -/
theorem grow_trigger (fuel : Nat) (t : ht_hash_table) (k v : String)
    (hsi : 0 ≤ t.size_index) (hlo : -21474836 ≤ t.count) (hhi : t.count ≤ 21474836) :
    (Int.tdiv (t.count * 100) (t.size : Int) > 70 → ht_insert (fuel + 1) t k v =
        (ht_resize fuel t 1).bind
          (fun t2 => ht_insert_loop t2 k v (fuel + 1) (ht_hash k t2.size 0) 1)) ∧
      (¬ Int.tdiv (t.count * 100) (t.size : Int) > 70 → ht_insert (fuel + 1) t k v =
        ht_insert_loop t k v (fuel + 1) (ht_hash k t.size 0) 1) ∧
      ∀ t1, ht_insert fuel t k v = some t1 →
        (t.size_index < t1.size_index ↔ Int.tdiv (t.count * 100) (t.size : Int) > 70) := by
  rw [← ht_load_eq t hlo hhi]
  exact ht_insert_grow_iff fuel t k v hsi

/-- Witness for C16: on the grown table `ht_grown` (`size_index` 1, count 39,
load 38) an insert probes without a resize and leaves `size_index` as it is. -/
theorem grow_trigger_witness :
    0 ≤ ht_grown.size_index ∧ -21474836 ≤ ht_grown.count ∧ ht_grown.count ≤ 21474836 ∧
      (Int.tdiv (ht_grown.count * 100) (ht_grown.size : Int) > 70 →
        ht_insert (1 + 1) ht_grown "a" "b" =
          (ht_resize 1 ht_grown 1).bind
            (fun t2 => ht_insert_loop t2 "a" "b" (1 + 1) (ht_hash "a" t2.size 0) 1)) ∧
      (¬ Int.tdiv (ht_grown.count * 100) (ht_grown.size : Int) > 70 →
        ht_insert (1 + 1) ht_grown "a" "b" =
          ht_insert_loop ht_grown "a" "b" (1 + 1) (ht_hash "a" ht_grown.size 0) 1) ∧
      ∀ t1, ht_insert 1 ht_grown "a" "b" = some t1 →
        (ht_grown.size_index < t1.size_index ↔
          Int.tdiv (ht_grown.count * 100) (ht_grown.size : Int) > 70) :=
  ⟨by decide, by decide, by decide,
    grow_trigger 1 ht_grown "a" "b" (by decide) (by decide) (by decide)⟩

end HashMap
